import Mathlib

/-!
Verification of the RR / EDF CPU-scheduling simulator (`scheduler.py`).

We give a shallow embedding of the core of the program: the `process`
record, the ready-queue admission routine `update_ready_queue`, the two
simulation loops `rr` and `edf`, the status check `check_status`, and the
metrics routine `calculate_metrics`.  Python's unbounded integers are
modelled by `Int`; fields that the source initialises to `None` are
modelled by `Option`; functions whose Python counterpart can raise an
exception return `Option` (with `none` for the raising runs).  The two
`while` loops are modelled with an explicit fuel parameter; termination
on well-formed inputs is proved as a theorem.
-/

/-- The `process` class of the source: static attributes (`name`,
`arrival_time`, `burst_time`, `deadline`) plus the mutable run-time
state.  The fields `lastEnd` and `preempted` do not exist in the source;
they are ghost instrumentation recording, for a dispatched process, the
simulated time at which its most recent executed slice ended, and
whether the process was ever resumed at a time different from where its
previous slice stopped (i.e. whether it was ever preempted by another
process or by idling).  They are written by the embedded schedulers but
never read by any control-flow decision, so they do not alter the
behaviour being modelled; they only let the preemption-sensitive
properties be stated. -/
structure process where
  name : String
  arrival_time : Int
  burst_time : Int
  deadline : Int
  start_time : Option Int
  end_time : Option Int
  remaining_time : Int
  waiting_time : Option Int
  response_time : Option Int
  turnaround_time : Option Int
  status : Option Char
  lastEnd : Int
  preempted : Bool
deriving DecidableEq, Repr

/-- The `__init__` constructor of the `process` class: the run-time
fields start as `None` and `remaining_time` starts equal to
`burst_time`.  (The ghost fields get inert defaults.) -/
def process.init (name : String) (arrival_time burst_time deadline : Int) : process :=
  { name := name
    arrival_time := arrival_time
    burst_time := burst_time
    deadline := deadline
    start_time := none
    end_time := none
    remaining_time := burst_time
    waiting_time := none
    response_time := none
    turnaround_time := none
    status := none
    lastEnd := 0
    preempted := false }

/-- The static (never-mutated) attributes of a process. -/
structure Pstatic where
  name : String
  arrival_time : Int
  burst_time : Int
  deadline : Int
deriving DecidableEq, Repr

/-- Projection of a `process` onto its static attributes. -/
def process.toStatic (p : process) : Pstatic :=
  ⟨p.name, p.arrival_time, p.burst_time, p.deadline⟩

/-- Worker for `update_ready_queue`, modelling the exact semantics of
the source's

  for process in processes:
      if process.arrival_time <= current_time:
          ready_queue.append(process)
          processes.remove(process)

A Python list iterator keeps a position index; `list.remove` (which here
removes exactly the element being visited, since `process` objects
compare by identity) shifts the remainder of the list one slot left, so
the element that followed the removed one is never visited by this
`for` loop.  We model that by always advancing the position `i` by one,
and erasing index `i` when the element is admitted.  The parameter `n`
is an upper bound on the number of remaining iterations (the position
`i` grows by one per iteration while the list never grows, so starting
from `n = processes.length` and `i = 0` the bound is never the reason
the loop stops); it only makes the recursion structural. -/
def update_ready_queue_go (current_time : Int) :
    Nat → Nat → List process → List process → List process × List process
  | 0, _, processes, ready_queue => (processes, ready_queue)
  | n + 1, i, processes, ready_queue =>
    if h : i < processes.length then
      if (processes.get ⟨i, h⟩).arrival_time ≤ current_time then
        update_ready_queue_go current_time n (i + 1) (processes.eraseIdx i)
          (ready_queue ++ [processes.get ⟨i, h⟩])
      else
        update_ready_queue_go current_time n (i + 1) processes ready_queue
    else
      (processes, ready_queue)

/-- The source's `update_ready_queue(processes, ready_queue)` (reading
the global `current_time`): appends to the ready queue those pending
processes with `arrival_time <= current_time` that the (buggy,
remove-while-iterating) `for` loop actually visits, and removes them
from the pending list.  Returns the new (pending, ready) pair. -/
def update_ready_queue (current_time : Int)
    (processes ready_queue : List process) : List process × List process :=
  update_ready_queue_go current_time processes.length 0 processes ready_queue

example :
    update_ready_queue 0 [process.init "P1" 0 1 5, process.init "P2" 0 1 5] [] =
      ([process.init "P2" 0 1 5], [process.init "P1" 0 1 5]) := by decide

/-- Sort key of `processes.sort(key=lambda p: p.arrival_time)`. -/
def leArrival (p q : process) : Prop := p.arrival_time ≤ q.arrival_time

instance : DecidableRel leArrival := fun p q => Int.decLe p.arrival_time q.arrival_time

/-- Sort key of `ready_queue.sort(key=lambda p: p.deadline)`. -/
def leDeadline (p q : process) : Prop := p.deadline ≤ q.deadline

instance : DecidableRel leDeadline := fun p q => Int.decLe p.deadline q.deadline

/-- Sort key of `sorted(cpu, key=lambda p: p.start_time)`.  In every
run the source reaches this line only with `start_time` set on every
completed process (comparing `None` would raise); the `getD 0` default
is never exercised there. -/
def leStart (p q : process) : Prop := p.start_time.getD 0 ≤ q.start_time.getD 0

instance : DecidableRel leStart := fun p q =>
  Int.decLe (p.start_time.getD 0) (q.start_time.getD 0)

/-- Python's `list.sort` / `sorted` are stable sorts; we model them by
the (stable) insertion sort. -/
def pySort (r : process → process → Prop) [DecidableRel r] (l : List process) : List process :=
  List.insertionSort r l

/-- The source's `check_status(process)`: sets `status` to `'S'` when
`end_time <= deadline` and to `'F'` otherwise.  The source reads an
integer `end_time`; a `None` there would raise on comparison, and in
the program `check_status` is only called right after `end_time` is
assigned, so the `none` branch is unreachable. -/
def check_status (p : process) : process :=
  match p.end_time with
  | none => p
  | some e => if e ≤ p.deadline then { p with status := some 'S' }
              else { p with status := some 'F' }

/-- The local state of one scheduler invocation: the pending pool (the
caller's `processes` list, destructively drained), the ready queue, the
simulated clock `current_time`, and the completed list `cpu`. -/
structure SchedState where
  processes : List process
  ready_queue : List process
  current_time : Int
  cpu : List process
deriving DecidableEq, Repr

/-- Result of one evaluation of a scheduler's loop condition plus body:
either the `while` condition failed and the loop stops in state `s`, or
one iteration ran, producing the next state. -/
inductive LoopStep where
  | stop (s : SchedState)
  | go (s : SchedState)
deriving DecidableEq, Repr

/-- The inner `while running_time > 0` loop of `rr`, run for `k` units:
each unit decrements the running process's `remaining_time`, advances
the clock, and re-admits newly arrived processes (so arrivals become
visible mid-slice).  Returns the running process, the new pending pool
and ready queue, and the new clock. -/
def rr_slice : Nat → process → List process → List process → Int →
    process × List process × List process × Int
  | 0, p, processes, ready_queue, current_time => (p, processes, ready_queue, current_time)
  | k + 1, p, processes, ready_queue, current_time =>
    let p := { p with remaining_time := p.remaining_time - 1 }
    let current_time := current_time + 1
    let (processes, ready_queue) := update_ready_queue current_time processes ready_queue
    rr_slice k p processes ready_queue current_time

/-- The bookkeeping the source does when a process is popped for
dispatch at time `t` for a slice of `k` units: on a first dispatch
(`response_time is None`) it records `response_time` and `start_time`.
The ghost fields are maintained here as described on `process`: a
process resumed at a time different from where its previous slice
ended is marked `preempted`, and `lastEnd` becomes the time at which
the granted slice will end. -/
def dispatchMark (t : Int) (k : Nat) (p : process) : process :=
  if p.response_time = none then
    { p with response_time := some (t - p.arrival_time)
             start_time := some t
             lastEnd := t + k }
  else if p.lastEnd = t then { p with lastEnd := t + k }
  else { p with preempted := true, lastEnd := t + k }

/-- One iteration of the `rr` loop (condition check plus body). -/
def rr_body (quantum : Int) (s : SchedState) : LoopStep :=
  if s.processes = [] ∧ s.ready_queue = [] then .stop s
  else
    let (processes, ready_queue) :=
      update_ready_queue s.current_time s.processes s.ready_queue
    match ready_queue with
    | [] => .go ⟨processes, [], s.current_time + 1, s.cpu⟩
    | p :: rest =>
      let k := (min quantum p.remaining_time).toNat
      let p := dispatchMark s.current_time k p
      let (p, processes, ready_queue, current_time) :=
        rr_slice k p processes rest s.current_time
      if p.remaining_time = 0 then
        let p := { p with end_time := some current_time, status := some 'S' }
        .go ⟨processes, ready_queue, current_time, s.cpu ++ [p]⟩
      else
        let (processes, ready_queue) :=
          update_ready_queue current_time processes ready_queue
        .go ⟨processes, ready_queue ++ [p], current_time, s.cpu⟩

/-- The `while processes or ready_queue` loop of `rr`, with fuel. -/
def rr_loop (quantum : Int) : Nat → SchedState → Option SchedState
  | 0, _ => none
  | fuel + 1, s =>
    match rr_body quantum s with
    | .stop s => some s
    | .go s => rr_loop quantum fuel s

/-- The source's `rr(processes, quantum)`: sort by arrival time, run
the simulation loop from an empty ready queue, clock 0 and empty
completed list, and return the completed list sorted by start time.
`none` means the fuel did not cover the whole run. -/
def rr (fuel : Nat) (processes : List process) (quantum : Int) : Option (List process) :=
  (rr_loop quantum fuel ⟨pySort leArrival processes, [], 0, []⟩).map
    (fun s => pySort leStart s.cpu)

/-- One iteration of the `edf` loop (condition check plus body): after
admission, the ready queue is re-sorted by deadline, the head runs for
exactly one time unit, and on completion `check_status` grades the
process against its deadline.  Ghost fields as in `rr_body`. -/
def edf_body (s : SchedState) : LoopStep :=
  if s.processes = [] ∧ s.ready_queue = [] then .stop s
  else
    let (processes, ready_queue) :=
      update_ready_queue s.current_time s.processes s.ready_queue
    match pySort leDeadline ready_queue with
    | [] => .go ⟨processes, [], s.current_time + 1, s.cpu⟩
    | p :: rest =>
        let p := dispatchMark s.current_time 1 p
        let (p, processes, ready_queue, current_time) :=
          rr_slice 1 p processes rest s.current_time
        if p.remaining_time = 0 then
          let p := check_status { p with end_time := some current_time }
          .go ⟨processes, ready_queue, current_time, s.cpu ++ [p]⟩
        else
          let (processes, ready_queue) :=
            update_ready_queue current_time processes ready_queue
          .go ⟨processes, ready_queue ++ [p], current_time, s.cpu⟩

/-- The `while processes or ready_queue` loop of `edf`, with fuel. -/
def edf_loop : Nat → SchedState → Option SchedState
  | 0, _ => none
  | fuel + 1, s =>
    match edf_body s with
    | .stop s => some s
    | .go s => edf_loop fuel s

/-- The source's `edf(processes)`: sort by arrival time, run the
simulation loop, and return the completed list sorted by start time. -/
def edf (fuel : Nat) (processes : List process) : Option (List process) :=
  (edf_loop fuel ⟨pySort leArrival processes, [], 0, []⟩).map
    (fun s => pySort leStart s.cpu)

/-- Python's `round(x, 2)`.  The source computes its metrics in IEEE
floating point with banker's rounding; we model the arithmetic exactly
in `ℚ` with round-half-up at two decimals.  No claim proved below
depends on the rounding mode or on float rounding error — they concern
which runs fail, exact integer fields, and the two calls of the
function computing from identical inputs. -/
def round2 (x : ℚ) : ℚ := ((⌊x * 100 + 1 / 2⌋ : ℤ) : ℚ) / 100

/-- The integer `end_time` the source reads on a completed process
(`None` there would raise; it is guarded away in `calculate_metrics`). -/
def endKey (p : process) : Int := p.end_time.getD 0

/-- Value of `max(cpu, key=lambda p: p.end_time).end_time` for the
non-empty list `h :: t`. -/
def maxEnd (h : process) (t : List process) : Int :=
  t.foldl (fun a p => max a (endKey p)) (endKey h)

/-- The per-process mutation done by the `for` loop of
`calculate_metrics`: `turnaround_time = end_time - arrival_time` and
`waiting_time = turnaround_time - burst_time`. -/
def updateTimes (p : process) : process :=
  let ta := endKey p - p.arrival_time
  { p with turnaround_time := some ta, waiting_time := some (ta - p.burst_time) }

/-- The source's `calculate_metrics(cpu)`.  It mutates every record's
`turnaround_time` and `waiting_time` and returns the metrics tuple
(AWT, ART, ATT, Throughput, Utilization, Proportionality); we return
the mutated list together with the tuple.  `none` models the runs in
which the source raises: `max` of an empty list (ValueError), a `None`
`end_time` or `response_time` (TypeError when compared, subtracted or
summed), `total_time = 0` and a zero `burst_time` (ZeroDivisionError).
The dead `if total_processes > 0 ... else 0` guards of the source are
kept as written. -/
def calculate_metrics (cpu : List process) :
    Option (List process × (ℚ × ℚ × ℚ × ℚ × ℚ × ℚ)) :=
  match cpu with
  | [] => none
  | h :: t =>
    if (h :: t).any (fun p => p.end_time.isNone || p.response_time.isNone) then none
    else
      let total_processes : Int := (h :: t).length
      let total_time : Int := maxEnd h t
      let cpu2 : List process := (h :: t).map updateTimes
      if total_time = 0 then none
      else if (h :: t).any (fun p => p.burst_time == 0) then none
      else
        let total_waiting_time : Int := (cpu2.map (fun p => p.waiting_time.getD 0)).sum
        let total_turnaround_time : Int := (cpu2.map (fun p => p.turnaround_time.getD 0)).sum
        let total_response_time : Int := (cpu2.map (fun p => p.response_time.getD 0)).sum
        let total_burst_time : Int := (cpu2.map (fun p => p.burst_time)).sum
        let awt : ℚ := if total_processes > 0 then
            round2 ((total_waiting_time : ℚ) / (total_processes : ℚ)) else 0
        let art : ℚ := if total_processes > 0 then
            round2 ((total_response_time : ℚ) / (total_processes : ℚ)) else 0
        let att : ℚ := if total_processes > 0 then
            round2 ((total_turnaround_time : ℚ) / (total_processes : ℚ)) else 0
        let throughput : ℚ := round2 ((total_processes : ℚ) / (total_time : ℚ))
        let utilization : ℚ := round2 (((total_burst_time : ℚ) / (total_time : ℚ)) * 100)
        let propOf : process → ℚ := fun p =>
          round2 ((p.turnaround_time.getD 0 : ℚ) / (p.burst_time : ℚ))
        let proportionality : ℚ :=
          ((t.map updateTimes).map propOf).foldl max (propOf (updateTimes h))
        some (cpu2, (awt, art, att, throughput, utilization, proportionality))

/-! ### Basic list facts used by the invariant proofs -/

theorem perm_get_cons_eraseIdx :
    ∀ (l : List process) (i : Nat) (h : i < l.length),
      l.Perm (l.get ⟨i, h⟩ :: l.eraseIdx i)
  | a :: l, 0, _ => by simp
  | a :: l, i + 1, h => by
    have ih := perm_get_cons_eraseIdx l i (by simpa using h)
    simpa [List.eraseIdx] using
      ((ih.cons a).trans (List.Perm.swap ((a :: l).get ⟨i + 1, h⟩) a (l.eraseIdx i)))

/-! ### Lemmas about `update_ready_queue` -/

theorem update_go_perm (t : Int) :
    ∀ (n i : Nat) (ps rq ps' rq' : List process),
      update_ready_queue_go t n i ps rq = (ps', rq') → (ps' ++ rq').Perm (ps ++ rq) := by
  intro n
  induction n with
  | zero =>
    intro i ps rq ps' rq' h
    injection h with h1 h2; subst h1; subst h2; exact List.Perm.refl _
  | succ n ih =>
    intro i ps rq ps' rq' h
    rw [update_ready_queue_go] at h
    split at h
    · rename_i hi
      split at h
      · have hrec := ih (i + 1) (ps.eraseIdx i) (rq ++ [ps.get ⟨i, hi⟩]) ps' rq' h
        have h1 : ps.Perm (ps.get ⟨i, hi⟩ :: ps.eraseIdx i) := perm_get_cons_eraseIdx ps i hi
        refine hrec.trans ?_
        have e1 : (ps.eraseIdx i ++ (rq ++ [ps.get ⟨i, hi⟩])).Perm
            (ps.eraseIdx i ++ (ps.get ⟨i, hi⟩ :: rq)) :=
          List.Perm.append_left _ (List.perm_append_singleton _ rq)
        have e2 : (ps.eraseIdx i ++ (ps.get ⟨i, hi⟩ :: rq)).Perm
            ((ps.get ⟨i, hi⟩ :: ps.eraseIdx i) ++ rq) := List.perm_middle
        have e4 : ((ps.get ⟨i, hi⟩ :: ps.eraseIdx i) ++ rq).Perm (ps ++ rq) :=
          List.Perm.append_right rq h1.symm
        exact e1.trans (e2.trans e4)
      · exact ih (i + 1) ps rq ps' rq' h
    · injection h with h1 h2; subst h1; subst h2; exact List.Perm.refl _

theorem update_go_mem_fst (t : Int) :
    ∀ (n i : Nat) (ps rq ps' rq' : List process),
      update_ready_queue_go t n i ps rq = (ps', rq') → ∀ x ∈ ps', x ∈ ps := by
  intro n
  induction n with
  | zero => intro i ps rq ps' rq' h; cases h; exact fun x hx => hx
  | succ n ih =>
    intro i ps rq ps' rq' h
    rw [update_ready_queue_go] at h
    split at h
    · split at h
      · intro x hx
        exact List.eraseIdx_subset _ _ (ih _ _ _ _ _ h x hx)
      · exact ih _ _ _ _ _ h
    · cases h; exact fun x hx => hx

theorem update_go_mem_snd (t : Int) :
    ∀ (n i : Nat) (ps rq ps' rq' : List process),
      update_ready_queue_go t n i ps rq = (ps', rq') →
      ∀ x ∈ rq', x ∈ rq ∨ (x ∈ ps ∧ x.arrival_time ≤ t) := by
  intro n
  induction n with
  | zero => intro i ps rq ps' rq' h; cases h; exact fun x hx => Or.inl hx
  | succ n ih =>
    intro i ps rq ps' rq' h
    rw [update_ready_queue_go] at h
    split at h
    · rename_i hi
      split at h
      · rename_i harr
        intro x hx
        rcases ih _ _ _ _ _ h x hx with hmem | ⟨hmem, hle⟩
        · rcases List.mem_append.mp hmem with hmem | hmem
          · exact Or.inl hmem
          · refine Or.inr ⟨?_, ?_⟩
            · simp only [List.mem_singleton] at hmem
              subst hmem
              exact List.get_mem ps i hi
            · simp only [List.mem_singleton] at hmem
              subst hmem
              exact harr
        · exact Or.inr ⟨List.eraseIdx_subset _ _ hmem, hle⟩
      · intro x hx
        rcases ih _ _ _ _ _ h x hx with hmem | ⟨hmem, hle⟩
        · exact Or.inl hmem
        · exact Or.inr ⟨hmem, hle⟩
    · cases h; exact fun x hx => Or.inl hx

theorem update_go_snd_append (t : Int) :
    ∀ (n i : Nat) (ps rq ps' rq' : List process),
      update_ready_queue_go t n i ps rq = (ps', rq') → ∃ m, rq' = rq ++ m := by
  intro n
  induction n with
  | zero => intro i ps rq ps' rq' h; cases h; exact ⟨[], by simp⟩
  | succ n ih =>
    intro i ps rq ps' rq' h
    rw [update_ready_queue_go] at h
    split at h
    · rename_i hi
      split at h
      · obtain ⟨m, hm⟩ := ih _ _ _ _ _ h
        exact ⟨ps.get ⟨i, hi⟩ :: m, by simpa using hm⟩
      · exact ih _ _ _ _ _ h
    · cases h; exact ⟨[], by simp⟩

theorem update_go_nomove (t : Int) :
    ∀ (n i : Nat) (ps rq ps' rq' : List process),
      update_ready_queue_go t n i ps rq = (ps', rq') → rq' = rq →
      ps.length ≤ n + i →
      ps' = ps ∧ ∀ x ∈ ps.drop i, ¬ x.arrival_time ≤ t := by
  intro n
  induction n with
  | zero =>
    intro i ps rq ps' rq' h hrq hlen
    cases h
    refine ⟨rfl, ?_⟩
    have : ps.drop i = [] := List.drop_eq_nil_of_le (by omega)
    simp [this]
  | succ n ih =>
    intro i ps rq ps' rq' h hrq hlen
    rw [update_ready_queue_go] at h
    split at h
    · rename_i hi
      split at h
      · exfalso
        obtain ⟨m, hm⟩ := update_go_snd_append t _ _ _ _ _ _ h
        subst hrq
        have := congrArg List.length hm
        simp at this
      · rename_i harr
        obtain ⟨hps, hrest⟩ := ih _ _ _ _ _ h hrq (by omega)
        refine ⟨hps, ?_⟩
        intro x hx
        rw [List.drop_eq_getElem_cons hi] at hx
        rcases List.mem_cons.mp hx with hx | hx
        · simpa [hx] using harr
        · exact hrest x hx
    · cases h
      refine ⟨rfl, ?_⟩
      have : ps.drop i = [] := List.drop_eq_nil_of_le (by omega)
      simp [this]

theorem update_perm (t : Int) (ps rq ps' rq' : List process)
    (h : update_ready_queue t ps rq = (ps', rq')) : (ps' ++ rq').Perm (ps ++ rq) :=
  update_go_perm t _ _ _ _ _ _ h

theorem update_mem_fst (t : Int) (ps rq ps' rq' : List process)
    (h : update_ready_queue t ps rq = (ps', rq')) : ∀ x ∈ ps', x ∈ ps :=
  update_go_mem_fst t _ _ _ _ _ _ h

theorem update_mem_snd (t : Int) (ps rq ps' rq' : List process)
    (h : update_ready_queue t ps rq = (ps', rq')) :
    ∀ x ∈ rq', x ∈ rq ∨ (x ∈ ps ∧ x.arrival_time ≤ t) :=
  update_go_mem_snd t _ _ _ _ _ _ h

/-- If the admission pass starts and ends with an empty ready queue,
nothing moved: the pending pool is untouched and every pending process
(all of them were visited) has not yet arrived. -/
theorem update_idle (t : Int) (ps ps' : List process)
    (h : update_ready_queue t ps [] = (ps', [])) :
    ps' = ps ∧ ∀ x ∈ ps, ¬ x.arrival_time ≤ t := by
  obtain ⟨hps, hall⟩ := update_go_nomove t _ _ _ _ _ _ h rfl (by omega)
  exact ⟨hps, by simpa using hall⟩

/-! ### Lemmas about `rr_slice` -/

theorem rr_slice_spec :
    ∀ (k : Nat) (p : process) (ps rq : List process) (t : Int)
      (p' : process) (ps' rq' : List process) (t' : Int),
      rr_slice k p ps rq t = (p', ps', rq', t') →
      p' = { p with remaining_time := p.remaining_time - k } ∧ t' = t + k := by
  intro k
  induction k with
  | zero =>
    intro p ps rq t p' ps' rq' t' h
    rw [rr_slice] at h
    injection h with h1 h2
    injection h2 with h2 h3
    injection h3 with h3 h4
    subst h1; subst h4
    constructor
    · show p = { p with remaining_time := p.remaining_time - (0 : Nat) }
      simp
    · simp
  | succ k ih =>
    intro p ps rq t p' ps' rq' t' h
    rw [rr_slice] at h
    split at h
    rename_i ps1 rq1 heq
    obtain ⟨h1, h2⟩ := ih _ _ _ _ _ _ _ _ h
    constructor
    · rw [h1]
      simp only [process.mk.injEq, and_true, true_and, eq_self_iff_true]
      push_cast
      ring
    · rw [h2]
      push_cast
      ring

theorem rr_slice_perm :
    ∀ (k : Nat) (p : process) (ps rq : List process) (t : Int)
      (p' : process) (ps' rq' : List process) (t' : Int),
      rr_slice k p ps rq t = (p', ps', rq', t') →
      (ps' ++ rq').Perm (ps ++ rq) := by
  intro k
  induction k with
  | zero =>
    intro p ps rq t p' ps' rq' t' h
    rw [rr_slice] at h
    injection h with h1 h2
    injection h2 with h2 h3
    injection h3 with h3 h4
    subst h2; subst h3
    exact List.Perm.refl _
  | succ k ih =>
    intro p ps rq t p' ps' rq' t' h
    rw [rr_slice] at h
    split at h
    rename_i ps1 rq1 heq
    exact (ih _ _ _ _ _ _ _ _ h).trans (update_perm _ _ _ _ _ heq)

theorem rr_slice_mem_fst :
    ∀ (k : Nat) (p : process) (ps rq : List process) (t : Int)
      (p' : process) (ps' rq' : List process) (t' : Int),
      rr_slice k p ps rq t = (p', ps', rq', t') →
      ∀ x ∈ ps', x ∈ ps := by
  intro k
  induction k with
  | zero =>
    intro p ps rq t p' ps' rq' t' h
    rw [rr_slice] at h
    injection h with h1 h2
    injection h2 with h2 h3
    injection h3 with h3 h4
    subst h2
    exact fun x hx => hx
  | succ k ih =>
    intro p ps rq t p' ps' rq' t' h
    rw [rr_slice] at h
    split at h
    rename_i ps1 rq1 heq
    intro x hx
    exact update_mem_fst _ _ _ _ _ heq x (ih _ _ _ _ _ _ _ _ h x hx)

theorem rr_slice_mem_snd :
    ∀ (k : Nat) (p : process) (ps rq : List process) (t : Int)
      (p' : process) (ps' rq' : List process) (t' : Int),
      rr_slice k p ps rq t = (p', ps', rq', t') →
      ∀ x ∈ rq', x ∈ rq ∨ (x ∈ ps ∧ x.arrival_time ≤ t + k) := by
  intro k
  induction k with
  | zero =>
    intro p ps rq t p' ps' rq' t' h
    rw [rr_slice] at h
    injection h with h1 h2
    injection h2 with h2 h3
    injection h3 with h3 h4
    subst h3
    exact fun x hx => Or.inl hx
  | succ k ih =>
    intro p ps rq t p' ps' rq' t' h
    rw [rr_slice] at h
    split at h
    rename_i ps1 rq1 heq
    intro x hx
    rcases ih _ _ _ _ _ _ _ _ h x hx with hmem | ⟨hmem, hle⟩
    · rcases update_mem_snd _ _ _ _ _ heq x hmem with hmem | ⟨hmem, hle⟩
      · exact Or.inl hmem
      · exact Or.inr ⟨hmem, by push_cast; omega⟩
    · refine Or.inr ⟨update_mem_fst _ _ _ _ _ heq x hmem, ?_⟩
      push_cast at hle ⊢
      omega

/-! ### Run-time invariants of a simulation -/

/-- A process still in the pending pool is untouched: fresh run-time
fields, full remaining time, positive burst. -/
def pendingInv (p : process) : Prop :=
  p.start_time = none ∧ p.end_time = none ∧ p.response_time = none ∧
  p.status = none ∧ p.remaining_time = p.burst_time ∧ 0 < p.burst_time ∧
  p.preempted = false

/-- Facts about a process that has been dispatched at least once, as
seen at clock time `t`: its start and response times are consistent, it
has executed `burst_time - remaining_time` units, its last slice ended
at `lastEnd ≤ t`, and the executed units fit between `start_time` and
`lastEnd` — exactly (no gaps) when it was never preempted, with slack
otherwise. -/
def startedFacts (t : Int) (p : process) : Prop :=
  ∃ s0, p.start_time = some s0 ∧
    p.response_time = some (s0 - p.arrival_time) ∧
    p.arrival_time ≤ s0 ∧ p.lastEnd ≤ t ∧
    s0 + (p.burst_time - p.remaining_time) ≤ p.lastEnd ∧
    (p.preempted = false → s0 + (p.burst_time - p.remaining_time) = p.lastEnd) ∧
    (p.preempted = true → s0 + (p.burst_time - p.remaining_time) < p.lastEnd)

/-- A process in the ready queue at clock time `t`: it has arrived, it
still needs CPU time, and it is either untouched or carries consistent
dispatch bookkeeping. -/
def readyInv (t : Int) (p : process) : Prop :=
  0 < p.remaining_time ∧ p.remaining_time ≤ p.burst_time ∧ 0 < p.burst_time ∧
  p.arrival_time ≤ t ∧ p.end_time = none ∧ p.status = none ∧
  ((p.start_time = none ∧ p.response_time = none ∧
    p.remaining_time = p.burst_time ∧ p.preempted = false) ∨ startedFacts t p)

/-- A completed process: no remaining time, all life-cycle fields set
and consistent, and its elapsed wall-clock time `end - start` is at
least `burst_time`, with equality exactly when it was never
preempted. -/
def doneCore (p : process) : Prop :=
  p.remaining_time = 0 ∧ 0 < p.burst_time ∧
  ∃ s0 e0, p.start_time = some s0 ∧ p.end_time = some e0 ∧
    p.response_time = some (s0 - p.arrival_time) ∧
    p.arrival_time ≤ s0 ∧ s0 + p.burst_time ≤ e0 ∧
    (p.preempted = false ↔ e0 = s0 + p.burst_time)

theorem readyInv_mono {t t' : Int} (h : t ≤ t') {p : process}
    (hp : readyInv t p) : readyInv t' p := by
  obtain ⟨h1, h2, h3, h4, h5, h6, h7⟩ := hp
  refine ⟨h1, h2, h3, by omega, h5, h6, ?_⟩
  rcases h7 with h7 | ⟨s0, hs0, hr, ha, hle, hexec, heq, hlt⟩
  · exact Or.inl h7
  · exact Or.inr ⟨s0, hs0, hr, ha, by omega, hexec, heq, hlt⟩

theorem pendingInv_ready {t : Int} {p : process} (hp : pendingInv p)
    (ha : p.arrival_time ≤ t) : readyInv t p := by
  obtain ⟨h1, h2, h3, h4, h5, h6, h7⟩ := hp
  exact ⟨by omega, by omega, h6, ha, h2, h4, Or.inl ⟨h1, h3, h5, h7⟩⟩

theorem update_inv {t : Int} {ps rq ps' rq' : List process}
    (h : update_ready_queue t ps rq = (ps', rq'))
    (hps : ∀ x ∈ ps, pendingInv x) (hrq : ∀ x ∈ rq, readyInv t x) :
    (∀ x ∈ ps', pendingInv x) ∧ (∀ x ∈ rq', readyInv t x) := by
  constructor
  · exact fun x hx => hps x (update_mem_fst _ _ _ _ _ h x hx)
  · intro x hx
    rcases update_mem_snd _ _ _ _ _ h x hx with hmem | ⟨hmem, hle⟩
    · exact hrq x hmem
    · exact pendingInv_ready (hps x hmem) hle

theorem rr_slice_inv :
    ∀ (k : Nat) (p : process) (ps rq : List process) (t : Int)
      (p' : process) (ps' rq' : List process) (t' : Int),
      rr_slice k p ps rq t = (p', ps', rq', t') →
      (∀ x ∈ ps, pendingInv x) → (∀ x ∈ rq, readyInv t x) →
      (∀ x ∈ ps', pendingInv x) ∧ (∀ x ∈ rq', readyInv t' x) := by
  intro k
  induction k with
  | zero =>
    intro p ps rq t p' ps' rq' t' h hps hrq
    rw [rr_slice] at h
    injection h with h1 h2
    injection h2 with h2 h3
    injection h3 with h3 h4
    subst h2; subst h3; subst h4
    exact ⟨hps, hrq⟩
  | succ k ih =>
    intro p ps rq t p' ps' rq' t' h hps hrq
    rw [rr_slice] at h
    split at h
    rename_i ps1 rq1 heq
    have hstep := update_inv heq hps (fun x hx => readyInv_mono (by omega) (hrq x hx))
    exact ih _ _ _ _ _ _ _ _ h hstep.1 hstep.2

/-- What `dispatchMark` guarantees when applied to a ready process:
run-time-irrelevant fields are unchanged, `lastEnd` points at the end
of the granted slice, and the dispatched process carries consistent
start/response bookkeeping whose executed units fill `start .. t`
exactly iff it has never been preempted. -/
theorem dispatchMark_spec {t : Int} {p : process} (k : Nat) (hp : readyInv t p) :
    (dispatchMark t k p).name = p.name ∧
    (dispatchMark t k p).arrival_time = p.arrival_time ∧
    (dispatchMark t k p).burst_time = p.burst_time ∧
    (dispatchMark t k p).deadline = p.deadline ∧
    (dispatchMark t k p).remaining_time = p.remaining_time ∧
    (dispatchMark t k p).end_time = none ∧
    (dispatchMark t k p).status = none ∧
    (dispatchMark t k p).lastEnd = t + k ∧
    ∃ s0, (dispatchMark t k p).start_time = some s0 ∧
      (dispatchMark t k p).response_time = some (s0 - p.arrival_time) ∧
      p.arrival_time ≤ s0 ∧
      s0 + (p.burst_time - p.remaining_time) ≤ t ∧
      ((dispatchMark t k p).preempted = false →
        s0 + (p.burst_time - p.remaining_time) = t) ∧
      ((dispatchMark t k p).preempted = true →
        s0 + (p.burst_time - p.remaining_time) < t) := by
  obtain ⟨h1, h2, h3, h4, h5, h6, h7⟩ := hp
  rw [dispatchMark]
  rcases h7 with ⟨hst, hresp, hrem, hpre⟩ | ⟨s0, hs0, hresp, ha, hle, hexec, heq, hlt⟩
  · rw [if_pos hresp]
    refine ⟨rfl, rfl, rfl, rfl, rfl, h5, h6, rfl, t, rfl, rfl, h4, ?_, ?_, ?_⟩
    · rw [hrem]; omega
    · intro _; rw [hrem]; omega
    · intro hcn; rw [hpre] at hcn; cases hcn
  · rw [if_neg (by simp [hresp])]
    by_cases hL : p.lastEnd = t
    · rw [if_pos hL]
      refine ⟨rfl, rfl, rfl, rfl, rfl, h5, h6, rfl, s0, hs0, hresp, ha, by omega, ?_, ?_⟩
      · intro hpf; have := heq hpf; omega
      · intro hpt; have := hlt hpt; omega
    · rw [if_neg hL]
      refine ⟨rfl, rfl, rfl, rfl, rfl, h5, h6, rfl, s0, hs0, hresp, ha, by omega, ?_, ?_⟩
      · intro hpf; cases hpf
      · intro _; omega

/-- `'S'` status written by the EDF completion path, consistently with
the deadline comparison. -/
def statusOK (p : process) : Prop :=
  ∃ e0, p.end_time = some e0 ∧
    ((e0 ≤ p.deadline ∧ p.status = some 'S') ∨ (p.deadline < e0 ∧ p.status = some 'F'))

/-- Master invariant of a scheduler state: every pending process is
untouched, every ready process carries consistent bookkeeping, and
every completed process satisfies `doneCore` plus the scheduler's
status discipline `dst`. -/
def SchedInv (dst : process → Prop) (s : SchedState) : Prop :=
  (∀ x ∈ s.processes, pendingInv x) ∧
  (∀ x ∈ s.ready_queue, readyInv s.current_time x) ∧
  (∀ x ∈ s.cpu, doneCore x ∧ dst x)

/-! ### Case analysis of one loop iteration -/

theorem rr_body_stop_spec (q : Int) (s s' : SchedState)
    (h : rr_body q s = .stop s') :
    s' = s ∧ s.processes = [] ∧ s.ready_queue = [] := by
  unfold rr_body at h
  by_cases hg : s.processes = [] ∧ s.ready_queue = []
  · rw [if_pos hg] at h
    injection h with h1
    exact ⟨h1.symm, hg.1, hg.2⟩
  · rw [if_neg hg] at h
    exfalso
    obtain ⟨ps1, rq1, hupd⟩ : ∃ a b,
        update_ready_queue s.current_time s.processes s.ready_queue = (a, b) := ⟨_, _, rfl⟩
    rw [hupd] at h
    simp only [] at h
    cases rq1 with
    | nil => simp only [] at h; exact LoopStep.noConfusion h
    | cons p rest =>
      simp only [] at h
      obtain ⟨pr, ps2, rq2, t2, hslice⟩ : ∃ a b c d,
          rr_slice (min q p.remaining_time).toNat
            (dispatchMark s.current_time (min q p.remaining_time).toNat p)
            ps1 rest s.current_time = (a, b, c, d) := ⟨_, _, _, _, rfl⟩
      rw [hslice] at h
      simp only [] at h
      by_cases hdone : pr.remaining_time = 0
      · rw [if_pos hdone] at h
        exact LoopStep.noConfusion h
      · rw [if_neg hdone] at h
        obtain ⟨ps3, rq3, hupd2⟩ : ∃ a b,
            update_ready_queue t2 ps2 rq2 = (a, b) := ⟨_, _, rfl⟩
        rw [hupd2] at h
        exact LoopStep.noConfusion h

theorem rr_body_go_spec (q : Int) (s s' : SchedState) (h : rr_body q s = .go s') :
    (∃ ps', update_ready_queue s.current_time s.processes s.ready_queue = (ps', []) ∧
       s' = ⟨ps', [], s.current_time + 1, s.cpu⟩) ∨
    (∃ ps1 p rest pr ps2 rq2 t2,
       update_ready_queue s.current_time s.processes s.ready_queue = (ps1, p :: rest) ∧
       rr_slice (min q p.remaining_time).toNat
         (dispatchMark s.current_time (min q p.remaining_time).toNat p)
         ps1 rest s.current_time = (pr, ps2, rq2, t2) ∧
       ((pr.remaining_time = 0 ∧
         s' = ⟨ps2, rq2, t2,
           s.cpu ++ [{ pr with end_time := some t2, status := some 'S' }]⟩) ∨
        (¬ pr.remaining_time = 0 ∧
         ∃ ps3 rq3, update_ready_queue t2 ps2 rq2 = (ps3, rq3) ∧
           s' = ⟨ps3, rq3 ++ [pr], t2, s.cpu⟩))) := by
  unfold rr_body at h
  by_cases hg : s.processes = [] ∧ s.ready_queue = []
  · rw [if_pos hg] at h
    cases h
  · rw [if_neg hg] at h
    obtain ⟨ps1, rq1, hupd⟩ : ∃ a b,
        update_ready_queue s.current_time s.processes s.ready_queue = (a, b) := ⟨_, _, rfl⟩
    rw [hupd] at h
    simp only [] at h
    cases rq1 with
    | nil =>
      simp only [] at h
      injection h with h1
      exact Or.inl ⟨ps1, hupd, h1.symm⟩
    | cons p rest =>
      simp only [] at h
      obtain ⟨pr, ps2, rq2, t2, hslice⟩ : ∃ a b c d,
          rr_slice (min q p.remaining_time).toNat
            (dispatchMark s.current_time (min q p.remaining_time).toNat p)
            ps1 rest s.current_time = (a, b, c, d) := ⟨_, _, _, _, rfl⟩
      rw [hslice] at h
      simp only [] at h
      by_cases hdone : pr.remaining_time = 0
      · rw [if_pos hdone] at h
        injection h with h1
        exact Or.inr ⟨ps1, p, rest, pr, ps2, rq2, t2, hupd, hslice,
          Or.inl ⟨hdone, h1.symm⟩⟩
      · rw [if_neg hdone] at h
        obtain ⟨ps3, rq3, hupd2⟩ : ∃ a b,
            update_ready_queue t2 ps2 rq2 = (a, b) := ⟨_, _, rfl⟩
        rw [hupd2] at h
        injection h with h1
        exact Or.inr ⟨ps1, p, rest, pr, ps2, rq2, t2, hupd, hslice,
          Or.inr ⟨hdone, ps3, rq3, hupd2, h1.symm⟩⟩

theorem pySort_eq_nil {r : process → process → Prop} [DecidableRel r]
    {l : List process} (h : pySort r l = []) : l = [] := by
  have hp := List.perm_insertionSort r l
  rw [pySort] at h
  rw [h] at hp
  exact hp.nil_eq.symm

theorem pySort_perm (r : process → process → Prop) [DecidableRel r]
    (l : List process) : (pySort r l).Perm l :=
  List.perm_insertionSort r l

theorem edf_body_stop_spec (s s' : SchedState)
    (h : edf_body s = .stop s') :
    s' = s ∧ s.processes = [] ∧ s.ready_queue = [] := by
  unfold edf_body at h
  by_cases hg : s.processes = [] ∧ s.ready_queue = []
  · rw [if_pos hg] at h
    injection h with h1
    exact ⟨h1.symm, hg.1, hg.2⟩
  · rw [if_neg hg] at h
    exfalso
    obtain ⟨ps1, rq1, hupd⟩ : ∃ a b,
        update_ready_queue s.current_time s.processes s.ready_queue = (a, b) := ⟨_, _, rfl⟩
    rw [hupd] at h
    simp only [] at h
    cases hsq : pySort leDeadline rq1 with
    | nil => rw [hsq] at h; simp only [] at h; exact LoopStep.noConfusion h
    | cons p rest =>
      rw [hsq] at h
      simp only [] at h
      obtain ⟨pr, ps2, rq2, t2, hslice⟩ : ∃ a b c d,
          rr_slice 1 (dispatchMark s.current_time 1 p)
            ps1 rest s.current_time = (a, b, c, d) := ⟨_, _, _, _, rfl⟩
      rw [hslice] at h
      simp only [] at h
      by_cases hdone : pr.remaining_time = 0
      · rw [if_pos hdone] at h
        exact LoopStep.noConfusion h
      · rw [if_neg hdone] at h
        obtain ⟨ps3, rq3, hupd2⟩ : ∃ a b,
            update_ready_queue t2 ps2 rq2 = (a, b) := ⟨_, _, rfl⟩
        rw [hupd2] at h
        exact LoopStep.noConfusion h

theorem edf_body_go_spec (s s' : SchedState) (h : edf_body s = .go s') :
    (∃ ps', update_ready_queue s.current_time s.processes s.ready_queue = (ps', []) ∧
       s' = ⟨ps', [], s.current_time + 1, s.cpu⟩) ∨
    (∃ ps1 rq1 p rest pr ps2 rq2 t2,
       update_ready_queue s.current_time s.processes s.ready_queue = (ps1, rq1) ∧
       pySort leDeadline rq1 = p :: rest ∧
       rr_slice 1 (dispatchMark s.current_time 1 p) ps1 rest s.current_time
         = (pr, ps2, rq2, t2) ∧
       ((pr.remaining_time = 0 ∧
         s' = ⟨ps2, rq2, t2,
           s.cpu ++ [check_status { pr with end_time := some t2 }]⟩) ∨
        (¬ pr.remaining_time = 0 ∧
         ∃ ps3 rq3, update_ready_queue t2 ps2 rq2 = (ps3, rq3) ∧
           s' = ⟨ps3, rq3 ++ [pr], t2, s.cpu⟩))) := by
  unfold edf_body at h
  by_cases hg : s.processes = [] ∧ s.ready_queue = []
  · rw [if_pos hg] at h
    cases h
  · rw [if_neg hg] at h
    obtain ⟨ps1, rq1, hupd⟩ : ∃ a b,
        update_ready_queue s.current_time s.processes s.ready_queue = (a, b) := ⟨_, _, rfl⟩
    rw [hupd] at h
    simp only [] at h
    cases hsq : pySort leDeadline rq1 with
    | nil =>
      rw [hsq] at h
      simp only [] at h
      injection h with h1
      have hnil := pySort_eq_nil hsq
      subst hnil
      exact Or.inl ⟨ps1, hupd, h1.symm⟩
    | cons p rest =>
      rw [hsq] at h
      simp only [] at h
      obtain ⟨pr, ps2, rq2, t2, hslice⟩ : ∃ a b c d,
          rr_slice 1 (dispatchMark s.current_time 1 p)
            ps1 rest s.current_time = (a, b, c, d) := ⟨_, _, _, _, rfl⟩
      rw [hslice] at h
      simp only [] at h
      by_cases hdone : pr.remaining_time = 0
      · rw [if_pos hdone] at h
        injection h with h1
        exact Or.inr ⟨ps1, rq1, p, rest, pr, ps2, rq2, t2, hupd, hsq, hslice,
          Or.inl ⟨hdone, h1.symm⟩⟩
      · rw [if_neg hdone] at h
        obtain ⟨ps3, rq3, hupd2⟩ : ∃ a b,
            update_ready_queue t2 ps2 rq2 = (a, b) := ⟨_, _, rfl⟩
        rw [hupd2] at h
        injection h with h1
        exact Or.inr ⟨ps1, rq1, p, rest, pr, ps2, rq2, t2, hupd, hsq, hslice,
          Or.inr ⟨hdone, ps3, rq3, hupd2, h1.symm⟩⟩

/-- Status discipline of the RR completion path: everything is `'S'`. -/
def dstRR (p : process) : Prop := p.status = some 'S'

theorem rr_body_inv {q : Int} (hq : 0 < q) {s s' : SchedState}
    (h : rr_body q s = .go s') (hInv : SchedInv dstRR s) : SchedInv dstRR s' := by
  obtain ⟨hps, hrq, hcpu⟩ := hInv
  rcases rr_body_go_spec q s s' h with
    ⟨ps', hupd, hs'⟩ | ⟨ps1, p, rest, pr, ps2, rq2, t2, hupd, hslice, hrest⟩
  · subst hs'
    refine ⟨(update_inv hupd hps hrq).1, ?_, hcpu⟩
    intro x hx
    cases hx
  · have hps1 := (update_inv hupd hps hrq).1
    have hpmem : readyInv s.current_time p :=
      (update_inv hupd hps hrq).2 p (List.mem_cons_self p rest)
    have hrest' : ∀ x ∈ rest, readyInv s.current_time x :=
      fun x hx => (update_inv hupd hps hrq).2 x (List.mem_cons_of_mem p hx)
    have hrempos := hpmem.1
    have hremle := hpmem.2.1
    have hburst := hpmem.2.2.1
    have harr := hpmem.2.2.2.1
    have hkpos : 1 ≤ (min q p.remaining_time).toNat := by
      have h1 : 0 < min q p.remaining_time := lt_min hq hrempos
      omega
    have hkle : ((min q p.remaining_time).toNat : Int) ≤ p.remaining_time := by
      have h1 : min q p.remaining_time ≤ p.remaining_time := min_le_right _ _
      have h2 : 0 < min q p.remaining_time := lt_min hq hrempos
      omega
    obtain ⟨hdm_name, hdm_arr, hdm_burst, hdm_dl, hdm_rem, hdm_end, hdm_status,
      hdm_lastEnd, s0, hdm_start, hdm_resp, hs0arr, hs0exec, hs0eq, hs0lt⟩ :=
      dispatchMark_spec (t := s.current_time) (p := p) (min q p.remaining_time).toNat hpmem
    obtain ⟨hpr, ht2⟩ := rr_slice_spec _ _ _ _ _ _ _ _ _ hslice
    have hsl_inv := rr_slice_inv _ _ _ _ _ _ _ _ _ hslice hps1 hrest'
    have hpr_name : pr.name = p.name := by rw [hpr]; simpa using hdm_name
    have hpr_arr : pr.arrival_time = p.arrival_time := by rw [hpr]; simpa using hdm_arr
    have hpr_burst : pr.burst_time = p.burst_time := by rw [hpr]; simpa using hdm_burst
    have hpr_rem : pr.remaining_time
        = p.remaining_time - (min q p.remaining_time).toNat := by
      rw [hpr]; simpa using congrArg (fun z => z - ((min q p.remaining_time).toNat : Int)) hdm_rem
    have hpr_end : pr.end_time = none := by rw [hpr]; simpa using hdm_end
    have hpr_status : pr.status = none := by rw [hpr]; simpa using hdm_status
    have hpr_lastEnd : pr.lastEnd
        = s.current_time + (min q p.remaining_time).toNat := by
      rw [hpr]; simpa using hdm_lastEnd
    have hpr_start : pr.start_time = some s0 := by rw [hpr]; simpa using hdm_start
    have hpr_resp : pr.response_time = some (s0 - p.arrival_time) := by
      rw [hpr]; simpa using hdm_resp
    have hpr_pre : pr.preempted = (dispatchMark s.current_time
        (min q p.remaining_time).toNat p).preempted := by rw [hpr]
    rcases hrest with ⟨hdone, hs'⟩ | ⟨hndone, ps3, rq3, hupd2, hs'⟩
    · -- the slice finished the process
      subst hs'
      have hkrem : ((min q p.remaining_time).toNat : Int) = p.remaining_time := by
        rw [hpr_rem] at hdone; omega
      refine ⟨hsl_inv.1, ?_, ?_⟩
      · intro x hx
        exact hsl_inv.2 x hx
      · intro x hx
        rcases List.mem_append.mp hx with hold | hnew
        · exact hcpu x hold
        · simp only [List.mem_singleton] at hnew
          subst hnew
          constructor
          · refine ⟨hdone, ?_, s0, t2, hpr_start, rfl, ?_, ?_, ?_, ?_⟩
            · show 0 < pr.burst_time
              rw [hpr_burst]; exact hburst
            · show pr.response_time = some (s0 - pr.arrival_time)
              rw [hpr_resp, hpr_arr]
            · show pr.arrival_time ≤ s0
              rw [hpr_arr]; exact hs0arr
            · show s0 + pr.burst_time ≤ t2
              rw [hpr_burst, ht2]
              omega
            · show pr.preempted = false ↔ t2 = s0 + pr.burst_time
              constructor
              · intro hpf
                rw [hpr_pre] at hpf
                have := hs0eq hpf
                rw [ht2, hpr_burst]
                omega
              · intro hef
                cases hb : pr.preempted
                · rfl
                · exfalso
                  rw [hpr_pre] at hb
                  have := hs0lt hb
                  rw [ht2, hpr_burst] at hef
                  omega
          · exact rfl
    · -- the process still has remaining time and is re-queued
      subst hs'
      have hremlt : ((min q p.remaining_time).toNat : Int) < p.remaining_time := by
        rw [hpr_rem] at hndone
        omega
      have hupd2_inv := update_inv hupd2 hsl_inv.1 hsl_inv.2
      refine ⟨hupd2_inv.1, ?_, hcpu⟩
      intro x hx
      rcases List.mem_append.mp hx with hold | hnew
      · exact hupd2_inv.2 x hold
      · simp only [List.mem_singleton] at hnew
        rw [hnew]
        subst ht2
        refine ⟨by rw [hpr_rem]; omega, by rw [hpr_rem, hpr_burst]; omega,
          by rw [hpr_burst]; omega, ?_, hpr_end, hpr_status, ?_⟩
        · show pr.arrival_time ≤ s.current_time + ((min q p.remaining_time).toNat : Int)
          rw [hpr_arr]
          omega
        refine Or.inr ⟨s0, hpr_start, by rw [hpr_resp, hpr_arr], by rw [hpr_arr]; omega,
          ?_, ?_, ?_, ?_⟩
        · show pr.lastEnd ≤ s.current_time + ((min q p.remaining_time).toNat : Int)
          rw [hpr_lastEnd]
        · rw [hpr_lastEnd, hpr_burst, hpr_rem]
          omega
        · intro hpf
          rw [hpr_pre] at hpf
          have := hs0eq hpf
          rw [hpr_lastEnd, hpr_burst, hpr_rem]
          omega
        · intro hpt
          rw [hpr_pre] at hpt
          have := hs0lt hpt
          rw [hpr_lastEnd, hpr_burst, hpr_rem]
          omega

theorem check_status_spec (p : process) (e : Int) :
    ∃ c, check_status { p with end_time := some e }
        = { p with end_time := some e, status := some c } ∧
      ((e ≤ p.deadline ∧ c = 'S') ∨ (p.deadline < e ∧ c = 'F')) := by
  unfold check_status
  by_cases h : e ≤ p.deadline
  · exact ⟨'S', by simp only []; rw [if_pos h], Or.inl ⟨h, rfl⟩⟩
  · exact ⟨'F', by simp only []; rw [if_neg h], Or.inr ⟨by omega, rfl⟩⟩

theorem edf_body_inv {s s' : SchedState}
    (h : edf_body s = .go s') (hInv : SchedInv statusOK s) : SchedInv statusOK s' := by
  obtain ⟨hps, hrq, hcpu⟩ := hInv
  rcases edf_body_go_spec s s' h with
    ⟨ps', hupd, hs'⟩ | ⟨ps1, rq1, p, rest, pr, ps2, rq2, t2, hupd, hsq, hslice, hrest⟩
  · subst hs'
    refine ⟨(update_inv hupd hps hrq).1, ?_, hcpu⟩
    intro x hx
    cases hx
  · have hps1 := (update_inv hupd hps hrq).1
    have hrq1 : ∀ x ∈ rq1, readyInv s.current_time x := (update_inv hupd hps hrq).2
    have hsqmem : ∀ x ∈ p :: rest, x ∈ rq1 := by
      intro x hx
      have := (pySort_perm leDeadline rq1).mem_iff.mp (by rw [hsq]; exact hx)
      exact this
    have hpmem : readyInv s.current_time p :=
      hrq1 p (hsqmem p (List.mem_cons_self p rest))
    have hrest' : ∀ x ∈ rest, readyInv s.current_time x :=
      fun x hx => hrq1 x (hsqmem x (List.mem_cons_of_mem p hx))
    have hrempos := hpmem.1
    have hremle := hpmem.2.1
    have hburst := hpmem.2.2.1
    have harr := hpmem.2.2.2.1
    obtain ⟨hdm_name, hdm_arr, hdm_burst, hdm_dl, hdm_rem, hdm_end, hdm_status,
      hdm_lastEnd, s0, hdm_start, hdm_resp, hs0arr, hs0exec, hs0eq, hs0lt⟩ :=
      dispatchMark_spec (t := s.current_time) (p := p) 1 hpmem
    obtain ⟨hpr, ht2⟩ := rr_slice_spec _ _ _ _ _ _ _ _ _ hslice
    have hsl_inv := rr_slice_inv _ _ _ _ _ _ _ _ _ hslice hps1 hrest'
    have hpr_name : pr.name = p.name := by rw [hpr]; simpa using hdm_name
    have hpr_arr : pr.arrival_time = p.arrival_time := by rw [hpr]; simpa using hdm_arr
    have hpr_burst : pr.burst_time = p.burst_time := by rw [hpr]; simpa using hdm_burst
    have hpr_dl : pr.deadline = p.deadline := by rw [hpr]; simpa using hdm_dl
    have hpr_rem : pr.remaining_time = p.remaining_time - 1 := by
      rw [hpr]
      simpa using congrArg (fun z => z - (1 : Int)) hdm_rem
    have hpr_end : pr.end_time = none := by rw [hpr]; simpa using hdm_end
    have hpr_status : pr.status = none := by rw [hpr]; simpa using hdm_status
    have hpr_lastEnd : pr.lastEnd = s.current_time + 1 := by
      rw [hpr]; simpa using hdm_lastEnd
    have hpr_start : pr.start_time = some s0 := by rw [hpr]; simpa using hdm_start
    have hpr_resp : pr.response_time = some (s0 - p.arrival_time) := by
      rw [hpr]; simpa using hdm_resp
    have hpr_pre : pr.preempted = (dispatchMark s.current_time 1 p).preempted := by
      rw [hpr]
    have ht2' : t2 = s.current_time + 1 := by rw [ht2]; simp
    rcases hrest with ⟨hdone, hs'⟩ | ⟨hndone, ps3, rq3, hupd2, hs'⟩
    · -- the unit of execution finished the process
      subst hs'
      have hkrem : p.remaining_time = 1 := by rw [hpr_rem] at hdone; omega
      obtain ⟨c, hc, hcs⟩ := check_status_spec pr t2
      refine ⟨hsl_inv.1, fun x hx => hsl_inv.2 x hx, ?_⟩
      intro x hx
      rcases List.mem_append.mp hx with hold | hnew
      · exact hcpu x hold
      · simp only [List.mem_singleton] at hnew
        rw [hnew, hc]
        constructor
        · refine ⟨hdone, ?_, s0, t2, hpr_start, rfl, ?_, ?_, ?_, ?_⟩
          · show 0 < pr.burst_time
            rw [hpr_burst]; exact hburst
          · show pr.response_time = some (s0 - pr.arrival_time)
            rw [hpr_resp, hpr_arr]
          · show pr.arrival_time ≤ s0
            rw [hpr_arr]; exact hs0arr
          · show s0 + pr.burst_time ≤ t2
            rw [hpr_burst, ht2']
            omega
          · show pr.preempted = false ↔ t2 = s0 + pr.burst_time
            constructor
            · intro hpf
              rw [hpr_pre] at hpf
              have := hs0eq hpf
              rw [ht2', hpr_burst]
              omega
            · intro hef
              cases hb : pr.preempted
              · rfl
              · exfalso
                rw [hpr_pre] at hb
                have := hs0lt hb
                rw [ht2', hpr_burst] at hef
                omega
        · refine ⟨t2, rfl, ?_⟩
          show (t2 ≤ pr.deadline ∧ some c = some 'S') ∨ (pr.deadline < t2 ∧ some c = some 'F')
          rcases hcs with ⟨hle, hcv⟩ | ⟨hgt, hcv⟩
          · exact Or.inl ⟨hle, by rw [hcv]⟩
          · exact Or.inr ⟨hgt, by rw [hcv]⟩
    · -- the process still has remaining time and is re-queued
      subst hs'
      have hremlt : (1 : Int) < p.remaining_time := by rw [hpr_rem] at hndone; omega
      have hupd2_inv := update_inv hupd2 hsl_inv.1 hsl_inv.2
      refine ⟨hupd2_inv.1, ?_, hcpu⟩
      intro x hx
      rcases List.mem_append.mp hx with hold | hnew
      · exact hupd2_inv.2 x hold
      · simp only [List.mem_singleton] at hnew
        rw [hnew]
        subst ht2
        refine ⟨by rw [hpr_rem]; omega, by rw [hpr_rem, hpr_burst]; omega,
          by rw [hpr_burst]; omega, ?_, hpr_end, hpr_status, ?_⟩
        · show pr.arrival_time ≤ s.current_time + ((1 : Nat) : Int)
          rw [hpr_arr]
          omega
        refine Or.inr ⟨s0, hpr_start, by rw [hpr_resp, hpr_arr], by rw [hpr_arr]; omega,
          ?_, ?_, ?_, ?_⟩
        · show pr.lastEnd ≤ s.current_time + ((1 : Nat) : Int)
          rw [hpr_lastEnd]
          omega
        · rw [hpr_lastEnd, hpr_burst, hpr_rem]
          omega
        · intro hpf
          rw [hpr_pre] at hpf
          have := hs0eq hpf
          rw [hpr_lastEnd, hpr_burst, hpr_rem]
          omega
        · intro hpt
          rw [hpr_pre] at hpt
          have := hs0lt hpt
          rw [hpr_lastEnd, hpr_burst, hpr_rem]
          omega

/-! ### Loop-level invariants -/

theorem rr_loop_inv {q : Int} (hq : 0 < q) :
    ∀ (fuel : Nat) (s sf : SchedState), rr_loop q fuel s = some sf →
      SchedInv dstRR s →
      SchedInv dstRR sf ∧ sf.processes = [] ∧ sf.ready_queue = [] := by
  intro fuel
  induction fuel with
  | zero => intro s sf h; cases h
  | succ fuel ih =>
    intro s sf h hInv
    rw [rr_loop] at h
    cases hb : rr_body q s with
    | stop s1 =>
      rw [hb] at h
      injection h with h1
      subst h1
      obtain ⟨h2, h3, h4⟩ := rr_body_stop_spec q s s1 hb
      subst h2
      exact ⟨hInv, h3, h4⟩
    | go s1 =>
      rw [hb] at h
      exact ih s1 sf h (rr_body_inv hq hb hInv)

theorem edf_loop_inv :
    ∀ (fuel : Nat) (s sf : SchedState), edf_loop fuel s = some sf →
      SchedInv statusOK s →
      SchedInv statusOK sf ∧ sf.processes = [] ∧ sf.ready_queue = [] := by
  intro fuel
  induction fuel with
  | zero => intro s sf h; cases h
  | succ fuel ih =>
    intro s sf h hInv
    rw [edf_loop] at h
    cases hb : edf_body s with
    | stop s1 =>
      rw [hb] at h
      injection h with h1
      subst h1
      obtain ⟨h2, h3, h4⟩ := edf_body_stop_spec s s1 hb
      subst h2
      exact ⟨hInv, h3, h4⟩
    | go s1 =>
      rw [hb] at h
      exact ih s1 sf h (edf_body_inv hb hInv)

/-! ### Conservation of the process population -/

/-- The multiset of static descriptors carried by a list of processes. -/
def msImg (l : List process) : Multiset Pstatic :=
  ((l.map process.toStatic : List Pstatic) : Multiset Pstatic)

/-- The multiset of static descriptors held by a scheduler state. -/
def statics (s : SchedState) : Multiset Pstatic :=
  msImg s.processes + msImg s.ready_queue + msImg s.cpu

theorem msImg_perm {l1 l2 : List process} (h : l1.Perm l2) : msImg l1 = msImg l2 :=
  Multiset.coe_eq_coe.mpr (h.map process.toStatic)

theorem msImg_append (l1 l2 : List process) : msImg (l1 ++ l2) = msImg l1 + msImg l2 := by
  simp [msImg]

theorem msImg_cons (p : process) (l : List process) :
    msImg (p :: l) = {p.toStatic} + msImg l := by
  simp [msImg, Multiset.singleton_add]

theorem msImg_nil : msImg [] = 0 := rfl

theorem dispatchMark_toStatic (t : Int) (k : Nat) (p : process) :
    (dispatchMark t k p).toStatic = p.toStatic := by
  unfold dispatchMark
  by_cases h1 : p.response_time = none
  · rw [if_pos h1]
    rfl
  · rw [if_neg h1]
    by_cases h2 : p.lastEnd = t
    · rw [if_pos h2]
      rfl
    · rw [if_neg h2]
      rfl

theorem rr_body_statics {q : Int} {s s' : SchedState}
    (h : rr_body q s = .go s') : statics s' = statics s := by
  rcases rr_body_go_spec q s s' h with
    ⟨ps', hupd, hs'⟩ | ⟨ps1, p, rest, pr, ps2, rq2, t2, hupd, hslice, hrest⟩
  · subst hs'
    have hup := msImg_perm (update_perm _ _ _ _ _ hupd)
    rw [msImg_append, msImg_append] at hup
    show msImg ps' + msImg [] + msImg s.cpu
      = msImg s.processes + msImg s.ready_queue + msImg s.cpu
    rw [msImg_nil, ← hup]
    abel
  · have hup := msImg_perm (update_perm _ _ _ _ _ hupd)
    rw [msImg_append, msImg_append, msImg_cons] at hup
    have hsl := msImg_perm (rr_slice_perm _ _ _ _ _ _ _ _ _ hslice)
    rw [msImg_append, msImg_append] at hsl
    obtain ⟨hpr, _⟩ := rr_slice_spec _ _ _ _ _ _ _ _ _ hslice
    have hprstat : pr.toStatic = p.toStatic := by
      rw [hpr]
      show (dispatchMark s.current_time (min q p.remaining_time).toNat p).toStatic
        = p.toStatic
      exact dispatchMark_toStatic _ _ _
    have key : msImg ps2 + msImg rq2 + {p.toStatic}
        = msImg s.processes + msImg s.ready_queue := by
      rw [hsl, ← hup]
      abel
    rcases hrest with ⟨hdone, hs'⟩ | ⟨hndone, ps3, rq3, hupd2, hs'⟩
    · subst hs'
      show msImg ps2 + msImg rq2 +
          msImg (s.cpu ++ [{ pr with end_time := some t2, status := some 'S' }])
        = msImg s.processes + msImg s.ready_queue + msImg s.cpu
      rw [msImg_append, msImg_cons, msImg_nil]
      rw [show ({ pr with end_time := some t2, status := some 'S' } : process).toStatic
        = p.toStatic from hprstat]
      rw [← key]
      abel
    · subst hs'
      have hup2 := msImg_perm (update_perm _ _ _ _ _ hupd2)
      rw [msImg_append, msImg_append] at hup2
      show msImg ps3 + msImg (rq3 ++ [pr]) + msImg s.cpu
        = msImg s.processes + msImg s.ready_queue + msImg s.cpu
      rw [msImg_append, msImg_cons, msImg_nil, hprstat, ← key, ← hup2]
      abel

theorem edf_body_statics {s s' : SchedState}
    (h : edf_body s = .go s') : statics s' = statics s := by
  rcases edf_body_go_spec s s' h with
    ⟨ps', hupd, hs'⟩ | ⟨ps1, rq1, p, rest, pr, ps2, rq2, t2, hupd, hsq, hslice, hrest⟩
  · subst hs'
    have hup := msImg_perm (update_perm _ _ _ _ _ hupd)
    rw [msImg_append, msImg_append] at hup
    show msImg ps' + msImg [] + msImg s.cpu
      = msImg s.processes + msImg s.ready_queue + msImg s.cpu
    rw [msImg_nil, ← hup]
    abel
  · have hup := msImg_perm (update_perm _ _ _ _ _ hupd)
    rw [msImg_append, msImg_append] at hup
    have hsort : msImg rq1 = {p.toStatic} + msImg rest := by
      rw [← msImg_cons]
      exact (msImg_perm (pySort_perm leDeadline rq1)).symm.trans
        (by rw [hsq])
    have hsl := msImg_perm (rr_slice_perm _ _ _ _ _ _ _ _ _ hslice)
    rw [msImg_append, msImg_append] at hsl
    obtain ⟨hpr, _⟩ := rr_slice_spec _ _ _ _ _ _ _ _ _ hslice
    have hprstat : pr.toStatic = p.toStatic := by
      rw [hpr]
      show (dispatchMark s.current_time 1 p).toStatic = p.toStatic
      exact dispatchMark_toStatic _ _ _
    have key : msImg ps2 + msImg rq2 + {p.toStatic}
        = msImg s.processes + msImg s.ready_queue := by
      rw [hsl, ← hup, hsort]
      abel
    rcases hrest with ⟨hdone, hs'⟩ | ⟨hndone, ps3, rq3, hupd2, hs'⟩
    · subst hs'
      obtain ⟨c, hc, _⟩ := check_status_spec pr t2
      show msImg ps2 + msImg rq2 +
          msImg (s.cpu ++ [check_status { pr with end_time := some t2 }])
        = msImg s.processes + msImg s.ready_queue + msImg s.cpu
      rw [msImg_append, msImg_cons, msImg_nil, hc]
      rw [show ({ pr with end_time := some t2, status := some c } : process).toStatic
        = p.toStatic from hprstat]
      rw [← key]
      abel
    · subst hs'
      have hup2 := msImg_perm (update_perm _ _ _ _ _ hupd2)
      rw [msImg_append, msImg_append] at hup2
      show msImg ps3 + msImg (rq3 ++ [pr]) + msImg s.cpu
        = msImg s.processes + msImg s.ready_queue + msImg s.cpu
      rw [msImg_append, msImg_cons, msImg_nil, hprstat, ← key, ← hup2]
      abel

theorem rr_loop_statics {q : Int} :
    ∀ (fuel : Nat) (s sf : SchedState), rr_loop q fuel s = some sf →
      statics sf = statics s := by
  intro fuel
  induction fuel with
  | zero => intro s sf h; cases h
  | succ fuel ih =>
    intro s sf h
    rw [rr_loop] at h
    cases hb : rr_body q s with
    | stop s1 =>
      rw [hb] at h
      injection h with h1
      subst h1
      obtain ⟨h2, _, _⟩ := rr_body_stop_spec q s s1 hb
      rw [h2]
    | go s1 =>
      rw [hb] at h
      exact (ih s1 sf h).trans (rr_body_statics hb)

theorem edf_loop_statics :
    ∀ (fuel : Nat) (s sf : SchedState), edf_loop fuel s = some sf →
      statics sf = statics s := by
  intro fuel
  induction fuel with
  | zero => intro s sf h; cases h
  | succ fuel ih =>
    intro s sf h
    rw [edf_loop] at h
    cases hb : edf_body s with
    | stop s1 =>
      rw [hb] at h
      injection h with h1
      subst h1
      obtain ⟨h2, _, _⟩ := edf_body_stop_spec s s1 hb
      rw [h2]
    | go s1 =>
      rw [hb] at h
      exact (ih s1 sf h).trans (edf_body_statics hb)

/-! ### Termination measure -/

/-- Total remaining CPU time carried by a list of processes. -/
def sumRem (l : List process) : Nat := (l.map (fun p => p.remaining_time.toNat)).sum

/-- Largest arrival time in a list (0 for the empty list). -/
def maxArr (l : List process) : Int := l.foldr (fun p m => max p.arrival_time m) 0

/-- Idle-time budget: how far the clock still is from the last arrival
in the pending pool. -/
def gap (s : SchedState) : Nat :=
  if s.processes = [] then 0 else (maxArr s.processes + 1 - s.current_time).toNat

/-- Strictly decreasing measure of a simulation state: every loop
iteration either runs at least one time unit of work (shrinking the
total remaining time) or idles one tick towards the next arrival. -/
def measureS (s : SchedState) : Nat :=
  2 * (sumRem s.processes + sumRem s.ready_queue) + gap s

theorem sumRem_perm {l1 l2 : List process} (h : l1.Perm l2) : sumRem l1 = sumRem l2 := by
  have := (h.map (fun p => p.remaining_time.toNat)).sum_eq
  simpa [sumRem] using this

theorem sumRem_append (l1 l2 : List process) :
    sumRem (l1 ++ l2) = sumRem l1 + sumRem l2 := by
  simp [sumRem]

theorem sumRem_cons (p : process) (l : List process) :
    sumRem (p :: l) = p.remaining_time.toNat + sumRem l := by
  simp [sumRem]

theorem maxArr_nonneg (l : List process) : 0 ≤ maxArr l := by
  induction l with
  | nil => simp [maxArr]
  | cons p l ih =>
    show 0 ≤ max p.arrival_time (maxArr l)
    omega

theorem le_maxArr {l : List process} {x : process} (hx : x ∈ l) :
    x.arrival_time ≤ maxArr l := by
  induction l with
  | nil => cases hx
  | cons p l ih =>
    rcases List.mem_cons.mp hx with h | h
    · subst h
      show x.arrival_time ≤ max x.arrival_time (maxArr l)
      omega
    · have := ih h
      show x.arrival_time ≤ max p.arrival_time (maxArr l)
      omega

theorem maxArr_le {l : List process} {c : Int} (h0 : 0 ≤ c)
    (h : ∀ x ∈ l, x.arrival_time ≤ c) : maxArr l ≤ c := by
  induction l with
  | nil => simpa [maxArr] using h0
  | cons p l ih =>
    have h1 := h p (List.mem_cons_self p l)
    have h2 := ih (fun x hx => h x (List.mem_cons_of_mem p hx))
    show max p.arrival_time (maxArr l) ≤ c
    omega

theorem maxArr_subset {l' l : List process} (h : ∀ x ∈ l', x ∈ l) :
    maxArr l' ≤ maxArr l :=
  maxArr_le (maxArr_nonneg l) (fun x hx => le_maxArr (h x hx))

theorem rr_body_measure {q : Int} (hq : 0 < q) {s s' : SchedState}
    (h : rr_body q s = .go s') (hInv : SchedInv dstRR s) :
    measureS s' < measureS s := by
  obtain ⟨hps, hrq, _⟩ := hInv
  have hguard : ¬(s.processes = [] ∧ s.ready_queue = []) := by
    intro hg
    rw [rr_body, if_pos hg] at h
    cases h
  rcases rr_body_go_spec q s s' h with
    ⟨ps', hupd, hs'⟩ | ⟨ps1, p, rest, pr, ps2, rq2, t2, hupd, hslice, hrest⟩
  · -- idle tick
    obtain ⟨m, hm⟩ := update_go_snd_append _ _ _ _ _ _ _ hupd
    have hrqnil : s.ready_queue = [] := by
      cases hrqe : s.ready_queue with
      | nil => rfl
      | cons a l =>
        rw [hrqe] at hm
        cases hm
    rw [hrqnil] at hupd
    obtain ⟨hpseq, hnarr⟩ := update_idle _ _ _ hupd
    have hpsne : s.processes ≠ [] := fun hn => hguard ⟨hn, hrqnil⟩
    subst hs'
    have hmax : s.current_time + 1 ≤ maxArr s.processes := by
      obtain ⟨a, ha⟩ := List.exists_mem_of_ne_nil s.processes hpsne
      have h1 := hnarr a ha
      have h2 := le_maxArr ha
      omega
    show measureS ⟨ps', [], s.current_time + 1, s.cpu⟩ < measureS s
    rw [measureS, measureS, gap, gap]
    rw [if_neg (by rw [hpseq]; exact hpsne), if_neg hpsne]
    rw [hpseq, hrqnil]
    simp only []
    omega
  · -- a dispatch runs k ≥ 1 units of work
    have hpmem : readyInv s.current_time p :=
      (update_inv hupd hps hrq).2 p (List.mem_cons_self p rest)
    have hrempos := hpmem.1
    have hkpos : 1 ≤ (min q p.remaining_time).toNat := by
      have h1 : 0 < min q p.remaining_time := lt_min hq hrempos
      omega
    have hkle : ((min q p.remaining_time).toNat : Int) ≤ p.remaining_time := by
      have h1 : min q p.remaining_time ≤ p.remaining_time := min_le_right _ _
      have h2 : 0 < min q p.remaining_time := lt_min hq hrempos
      omega
    have hup_sum : sumRem ps1 + (p.remaining_time.toNat + sumRem rest)
        = sumRem s.processes + sumRem s.ready_queue := by
      have := sumRem_perm (update_perm _ _ _ _ _ hupd)
      rw [sumRem_append, sumRem_append, sumRem_cons] at this
      omega
    obtain ⟨hpr, ht2⟩ := rr_slice_spec _ _ _ _ _ _ _ _ _ hslice
    obtain ⟨_, _, _, _, hdm_rem, _, _, _, _, _, _, _, _, _, _⟩ :=
      dispatchMark_spec (t := s.current_time) (p := p) (min q p.remaining_time).toNat hpmem
    have hpr_rem : pr.remaining_time
        = p.remaining_time - (min q p.remaining_time).toNat := by
      rw [hpr]
      simpa using congrArg (fun z => z - ((min q p.remaining_time).toNat : Int)) hdm_rem
    have hsl_sum : sumRem ps2 + sumRem rq2 = sumRem ps1 + sumRem rest := by
      have := sumRem_perm (rr_slice_perm _ _ _ _ _ _ _ _ _ hslice)
      rw [sumRem_append, sumRem_append] at this
      omega
    have hmemps2 : ∀ x ∈ ps2, x ∈ s.processes := by
      intro x hx
      exact update_mem_fst _ _ _ _ _ hupd x
        (rr_slice_mem_fst _ _ _ _ _ _ _ _ _ hslice x hx)
    have hgap2 : ∀ pend : List process, (∀ x ∈ pend, x ∈ s.processes) →
        ∀ tl : Int, s.current_time ≤ tl →
        (if pend = [] then 0
          else (maxArr pend + 1 - tl).toNat) ≤ gap s := by
      intro pend hsub tl htl
      by_cases hpe : pend = []
      · rw [if_pos hpe]
        omega
      · rw [if_neg hpe]
        have hone : s.processes ≠ [] := by
          intro hn
          cases hpee : pend with
          | nil => exact hpe hpee
          | cons a l =>
            have := hsub a (by rw [hpee]; exact List.mem_cons_self a l)
            rw [hn] at this
            cases this
        rw [gap, if_neg hone]
        have := maxArr_subset hsub
        omega
    rcases hrest with ⟨hdone, hs'⟩ | ⟨hndone, ps3, rq3, hupd2, hs'⟩
    · subst hs'
      have hg2 := hgap2 ps2 hmemps2 t2 (by rw [ht2]; omega)
      show 2 * (sumRem ps2 + sumRem rq2) +
          (if ps2 = [] then 0 else (maxArr ps2 + 1 - t2).toNat) < measureS s
      rw [measureS]
      omega
    · subst hs'
      have hup2_sum : sumRem ps3 + sumRem rq3 = sumRem ps2 + sumRem rq2 := by
        have := sumRem_perm (update_perm _ _ _ _ _ hupd2)
        rw [sumRem_append, sumRem_append] at this
        omega
      have hmemps3 : ∀ x ∈ ps3, x ∈ s.processes := by
        intro x hx
        exact hmemps2 x (update_mem_fst _ _ _ _ _ hupd2 x hx)
      have hg3 := hgap2 ps3 hmemps3 t2 (by rw [ht2]; omega)
      show 2 * (sumRem ps3 + sumRem (rq3 ++ [pr])) +
          (if ps3 = [] then 0 else (maxArr ps3 + 1 - t2).toNat) < measureS s
      rw [measureS, sumRem_append, sumRem_cons,
        show sumRem ([] : List process) = 0 from rfl]
      have hprn : pr.remaining_time.toNat
          = p.remaining_time.toNat - (min q p.remaining_time).toNat := by
        rw [hpr_rem]
        omega
      omega

theorem edf_body_measure {s s' : SchedState}
    (h : edf_body s = .go s') (hInv : SchedInv statusOK s) :
    measureS s' < measureS s := by
  obtain ⟨hps, hrq, _⟩ := hInv
  have hguard : ¬(s.processes = [] ∧ s.ready_queue = []) := by
    intro hg
    rw [edf_body, if_pos hg] at h
    cases h
  rcases edf_body_go_spec s s' h with
    ⟨ps', hupd, hs'⟩ | ⟨ps1, rq1, p, rest, pr, ps2, rq2, t2, hupd, hsq, hslice, hrest⟩
  · -- idle tick
    obtain ⟨m, hm⟩ := update_go_snd_append _ _ _ _ _ _ _ hupd
    have hrqnil : s.ready_queue = [] := by
      cases hrqe : s.ready_queue with
      | nil => rfl
      | cons a l =>
        rw [hrqe] at hm
        cases hm
    rw [hrqnil] at hupd
    obtain ⟨hpseq, hnarr⟩ := update_idle _ _ _ hupd
    have hpsne : s.processes ≠ [] := fun hn => hguard ⟨hn, hrqnil⟩
    subst hs'
    have hmax : s.current_time + 1 ≤ maxArr s.processes := by
      obtain ⟨a, ha⟩ := List.exists_mem_of_ne_nil s.processes hpsne
      have h1 := hnarr a ha
      have h2 := le_maxArr ha
      omega
    show measureS ⟨ps', [], s.current_time + 1, s.cpu⟩ < measureS s
    rw [measureS, measureS, gap, gap]
    rw [if_neg (by rw [hpseq]; exact hpsne), if_neg hpsne]
    rw [hpseq, hrqnil]
    simp only []
    omega
  · -- a dispatch runs one unit of work
    have hrq1 : ∀ x ∈ rq1, readyInv s.current_time x := (update_inv hupd hps hrq).2
    have hpmem : readyInv s.current_time p :=
      hrq1 p ((pySort_perm leDeadline rq1).mem_iff.mp
        (by rw [hsq]; exact List.mem_cons_self p rest))
    have hrempos := hpmem.1
    have hup_sum : sumRem ps1 + sumRem rq1
        = sumRem s.processes + sumRem s.ready_queue := by
      have := sumRem_perm (update_perm _ _ _ _ _ hupd)
      rw [sumRem_append, sumRem_append] at this
      omega
    have hsq_sum : sumRem rq1 = p.remaining_time.toNat + sumRem rest := by
      have h1 := sumRem_perm (pySort_perm leDeadline rq1)
      rw [hsq, sumRem_cons] at h1
      omega
    obtain ⟨hpr, ht2⟩ := rr_slice_spec _ _ _ _ _ _ _ _ _ hslice
    obtain ⟨_, _, _, _, hdm_rem, _, _, _, _, _, _, _, _, _, _⟩ :=
      dispatchMark_spec (t := s.current_time) (p := p) 1 hpmem
    have hpr_rem : pr.remaining_time = p.remaining_time - 1 := by
      rw [hpr]
      simpa using congrArg (fun z => z - (1 : Int)) hdm_rem
    have hsl_sum : sumRem ps2 + sumRem rq2 = sumRem ps1 + sumRem rest := by
      have := sumRem_perm (rr_slice_perm _ _ _ _ _ _ _ _ _ hslice)
      rw [sumRem_append, sumRem_append] at this
      omega
    have hmemps2 : ∀ x ∈ ps2, x ∈ s.processes := by
      intro x hx
      exact update_mem_fst _ _ _ _ _ hupd x
        (rr_slice_mem_fst _ _ _ _ _ _ _ _ _ hslice x hx)
    have hgap2 : ∀ pend : List process, (∀ x ∈ pend, x ∈ s.processes) →
        ∀ tl : Int, s.current_time ≤ tl →
        (if pend = [] then 0
          else (maxArr pend + 1 - tl).toNat) ≤ gap s := by
      intro pend hsub tl htl
      by_cases hpe : pend = []
      · rw [if_pos hpe]
        omega
      · rw [if_neg hpe]
        have hone : s.processes ≠ [] := by
          intro hn
          obtain ⟨a, ha⟩ := List.exists_mem_of_ne_nil pend hpe
          have := hsub a ha
          rw [hn] at this
          cases this
        rw [gap, if_neg hone]
        have := maxArr_subset hsub
        omega
    have ht2' : s.current_time ≤ t2 := by rw [ht2]; omega
    rcases hrest with ⟨hdone, hs'⟩ | ⟨hndone, ps3, rq3, hupd2, hs'⟩
    · subst hs'
      have hg2 := hgap2 ps2 hmemps2 t2 ht2'
      show 2 * (sumRem ps2 + sumRem rq2) +
          (if ps2 = [] then 0 else (maxArr ps2 + 1 - t2).toNat) < measureS s
      rw [measureS]
      omega
    · subst hs'
      have hup2_sum : sumRem ps3 + sumRem rq3 = sumRem ps2 + sumRem rq2 := by
        have := sumRem_perm (update_perm _ _ _ _ _ hupd2)
        rw [sumRem_append, sumRem_append] at this
        omega
      have hmemps3 : ∀ x ∈ ps3, x ∈ s.processes := by
        intro x hx
        exact hmemps2 x (update_mem_fst _ _ _ _ _ hupd2 x hx)
      have hg3 := hgap2 ps3 hmemps3 t2 ht2'
      show 2 * (sumRem ps3 + sumRem (rq3 ++ [pr])) +
          (if ps3 = [] then 0 else (maxArr ps3 + 1 - t2).toNat) < measureS s
      rw [measureS, sumRem_append, sumRem_cons,
        show sumRem ([] : List process) = 0 from rfl]
      have hprn : pr.remaining_time.toNat = p.remaining_time.toNat - 1 := by
        rw [hpr_rem]
        omega
      omega

theorem rr_loop_terminates {q : Int} (hq : 0 < q) :
    ∀ (N : Nat) (s : SchedState), measureS s ≤ N → SchedInv dstRR s →
      ∃ fuel sf, rr_loop q fuel s = some sf := by
  intro N
  induction N with
  | zero =>
    intro s hm hInv
    cases hb : rr_body q s with
    | stop s1 => exact ⟨1, s1, by rw [rr_loop, hb]⟩
    | go s1 =>
      have := rr_body_measure hq hb hInv
      omega
  | succ N ih =>
    intro s hm hInv
    cases hb : rr_body q s with
    | stop s1 => exact ⟨1, s1, by rw [rr_loop, hb]⟩
    | go s1 =>
      have hlt := rr_body_measure hq hb hInv
      obtain ⟨fuel, sf, hf⟩ := ih s1 (by omega) (rr_body_inv hq hb hInv)
      exact ⟨fuel + 1, sf, by rw [rr_loop, hb]; exact hf⟩

theorem edf_loop_terminates :
    ∀ (N : Nat) (s : SchedState), measureS s ≤ N → SchedInv statusOK s →
      ∃ fuel sf, edf_loop fuel s = some sf := by
  intro N
  induction N with
  | zero =>
    intro s hm hInv
    cases hb : edf_body s with
    | stop s1 => exact ⟨1, s1, by rw [edf_loop, hb]⟩
    | go s1 =>
      have := edf_body_measure hb hInv
      omega
  | succ N ih =>
    intro s hm hInv
    cases hb : edf_body s with
    | stop s1 => exact ⟨1, s1, by rw [edf_loop, hb]⟩
    | go s1 =>
      have hlt := edf_body_measure hb hInv
      obtain ⟨fuel, sf, hf⟩ := ih s1 (by omega) (edf_body_inv hb hInv)
      exact ⟨fuel + 1, sf, by rw [edf_loop, hb]; exact hf⟩

/-! ### From the top-level functions to the loop -/

/-- A freshly constructed process record, exactly as `process.__init__`
leaves it. -/
def fresh (p : process) : Prop :=
  p.start_time = none ∧ p.end_time = none ∧ p.response_time = none ∧
  p.status = none ∧ p.remaining_time = p.burst_time ∧ p.preempted = false

theorem fresh_init (name : String) (a b d : Int) : fresh (process.init name a b d) :=
  ⟨rfl, rfl, rfl, rfl, rfl, rfl⟩

theorem initial_inv (dst : process → Prop) {l : List process}
    (hl : ∀ p ∈ l, fresh p ∧ 0 < p.burst_time) :
    SchedInv dst ⟨pySort leArrival l, [], 0, []⟩ := by
  refine ⟨?_, ?_, ?_⟩
  · intro x hx
    have hx' : x ∈ l := (pySort_perm leArrival l).mem_iff.mp hx
    obtain ⟨⟨f1, f2, f3, f4, f5, f6⟩, hb⟩ := hl x hx'
    exact ⟨f1, f2, f3, f4, f5, hb, f6⟩
  · intro x hx
    cases hx
  · intro x hx
    cases hx

theorem rr_eq_some {fuel : Nat} {l : List process} {q : Int} {r : List process} :
    rr fuel l q = some r ↔
      ∃ sf, rr_loop q fuel ⟨pySort leArrival l, [], 0, []⟩ = some sf ∧
        r = pySort leStart sf.cpu := by
  rw [rr]
  cases h : rr_loop q fuel ⟨pySort leArrival l, [], 0, []⟩ with
  | none => simp
  | some sf => simp [eq_comm]

theorem edf_eq_some {fuel : Nat} {l : List process} {r : List process} :
    edf fuel l = some r ↔
      ∃ sf, edf_loop fuel ⟨pySort leArrival l, [], 0, []⟩ = some sf ∧
        r = pySort leStart sf.cpu := by
  rw [edf]
  cases h : edf_loop fuel ⟨pySort leArrival l, [], 0, []⟩ with
  | none => simp
  | some sf => simp [eq_comm]

/-! ### Unconditional facts about the EDF completed list -/

theorem edf_body_statusOK {s s' : SchedState} (h : edf_body s = .go s')
    (hc : ∀ x ∈ s.cpu, statusOK x ∧ x.remaining_time = 0) :
    ∀ x ∈ s'.cpu, statusOK x ∧ x.remaining_time = 0 := by
  rcases edf_body_go_spec s s' h with
    ⟨ps', hupd, hs'⟩ | ⟨ps1, rq1, p, rest, pr, ps2, rq2, t2, hupd, hsq, hslice, hrest⟩
  · subst hs'
    exact hc
  · rcases hrest with ⟨hdone, hs'⟩ | ⟨hndone, ps3, rq3, hupd2, hs'⟩
    · subst hs'
      intro x hx
      rcases List.mem_append.mp hx with hold | hnew
      · exact hc x hold
      · simp only [List.mem_singleton] at hnew
        rw [hnew]
        obtain ⟨c, hcc, hcs⟩ := check_status_spec pr t2
        rw [hcc]
        constructor
        · refine ⟨t2, rfl, ?_⟩
          show (t2 ≤ pr.deadline ∧ some c = some 'S') ∨
            (pr.deadline < t2 ∧ some c = some 'F')
          rcases hcs with ⟨hle, hcv⟩ | ⟨hgt, hcv⟩
          · exact Or.inl ⟨hle, by rw [hcv]⟩
          · exact Or.inr ⟨hgt, by rw [hcv]⟩
        · exact hdone
    · subst hs'
      exact hc

theorem edf_loop_statusOK :
    ∀ (fuel : Nat) (s sf : SchedState), edf_loop fuel s = some sf →
      (∀ x ∈ s.cpu, statusOK x ∧ x.remaining_time = 0) →
      ∀ x ∈ sf.cpu, statusOK x ∧ x.remaining_time = 0 := by
  intro fuel
  induction fuel with
  | zero => intro s sf h; cases h
  | succ fuel ih =>
    intro s sf h hc
    rw [edf_loop] at h
    cases hb : edf_body s with
    | stop s1 =>
      rw [hb] at h
      injection h with h1
      subst h1
      obtain ⟨h2, _, _⟩ := edf_body_stop_spec s s1 hb
      rw [h2]
      exact hc
    | go s1 =>
      rw [hb] at h
      exact ih s1 sf h (edf_body_statusOK hb hc)

/-! ### Claim theorems -/

/-- Claim C1 (code bug): the admission routine does NOT move every
arrived process in a single call.  With two processes both arrived at
time 0, one call moves only the first: removing the element being
visited makes the Python `for` loop skip its successor, so P2 — whose
`arrival_time <= current_time` — is left in the pending pool. -/
theorem update_ready_queue_skips_eligible :
    update_ready_queue 0 [process.init "P1" 0 1 5, process.init "P2" 0 1 5] [] =
      ([process.init "P2" 0 1 5], [process.init "P1" 0 1 5]) ∧
    (process.init "P2" 0 1 5).arrival_time ≤ 0 := by
  decide

/-- Claim C2: on the empty completed list, `calculate_metrics` fails
(the source raises ValueError at `max(cpu, ...)`) and never returns a
metrics tuple — in particular it cannot silently return zero-valued
metrics. -/
theorem calculate_metrics_empty_fails : calculate_metrics [] = none := rfl

instance : IsTotal process leStart :=
  ⟨fun a b => Int.le_total (a.start_time.getD 0) (b.start_time.getD 0)⟩

instance : IsTrans process leStart :=
  ⟨fun _ _ _ h1 h2 => le_trans h1 h2⟩

/-- Claim C8: the completed lists returned by `rr` and by `edf` are
sorted by `start_time` ascending (both functions end with
`sorted(cpu, key=lambda p: p.start_time)`). -/
theorem results_sorted_by_start (fuel : Nat) (l : List process) (q : Int) :
    (∀ r, rr fuel l q = some r → List.Pairwise leStart r) ∧
    (∀ r, edf fuel l = some r → List.Pairwise leStart r) := by
  constructor
  · intro r h
    obtain ⟨sf, _, hr⟩ := rr_eq_some.mp h
    rw [hr]
    exact List.sorted_insertionSort leStart sf.cpu
  · intro r h
    obtain ⟨sf, _, hr⟩ := edf_eq_some.mp h
    rw [hr]
    exact List.sorted_insertionSort leStart sf.cpu

/-- Claim C4: on P1(arrival 0, burst 4, deadline 10), P2(arrival 1,
burst 2, deadline 3) with quantum 2, the two schedulers produce exactly
the runs the specification describes.  EDF: P1 starts at 0, is
preempted at time 1 in favour of P2 (ghost flag `preempted = true` on
P1), P2 runs to completion at 3 (start 1, end 3, never preempted), P1
resumes and ends at 6.  RR: P1 runs 0→2, P2 runs 2→4 (start 2, end 4),
P1 finishes 4→6 (start 0, end 6). -/
theorem scenario_B_trace :
    rr 20 [process.init "P1" 0 4 10, process.init "P2" 1 2 3] 2 = some
      [{ name := "P1", arrival_time := 0, burst_time := 4, deadline := 10,
         start_time := some 0, end_time := some 6, remaining_time := 0,
         waiting_time := none, response_time := some 0, turnaround_time := none,
         status := some 'S', lastEnd := 6, preempted := true },
       { name := "P2", arrival_time := 1, burst_time := 2, deadline := 3,
         start_time := some 2, end_time := some 4, remaining_time := 0,
         waiting_time := none, response_time := some 1, turnaround_time := none,
         status := some 'S', lastEnd := 4, preempted := false }] ∧
    edf 20 [process.init "P1" 0 4 10, process.init "P2" 1 2 3] = some
      [{ name := "P1", arrival_time := 0, burst_time := 4, deadline := 10,
         start_time := some 0, end_time := some 6, remaining_time := 0,
         waiting_time := none, response_time := some 0, turnaround_time := none,
         status := some 'S', lastEnd := 6, preempted := true },
       { name := "P2", arrival_time := 1, burst_time := 2, deadline := 3,
         start_time := some 1, end_time := some 3, remaining_time := 0,
         waiting_time := none, response_time := some 0, turnaround_time := none,
         status := some 'S', lastEnd := 3, preempted := false }] := by
  constructor
  · rfl
  · rfl

theorem rr_loop_final {q : Int} :
    ∀ (fuel : Nat) (s sf : SchedState), rr_loop q fuel s = some sf →
      sf.processes = [] ∧ sf.ready_queue = [] := by
  intro fuel
  induction fuel with
  | zero => intro s sf h; cases h
  | succ fuel ih =>
    intro s sf h
    rw [rr_loop] at h
    cases hb : rr_body q s with
    | stop s1 =>
      rw [hb] at h
      injection h with h1
      subst h1
      obtain ⟨h2, h3, h4⟩ := rr_body_stop_spec q s s1 hb
      rw [h2]
      exact ⟨h3, h4⟩
    | go s1 =>
      rw [hb] at h
      exact ih s1 sf h

theorem edf_loop_final :
    ∀ (fuel : Nat) (s sf : SchedState), edf_loop fuel s = some sf →
      sf.processes = [] ∧ sf.ready_queue = [] := by
  intro fuel
  induction fuel with
  | zero => intro s sf h; cases h
  | succ fuel ih =>
    intro s sf h
    rw [edf_loop] at h
    cases hb : edf_body s with
    | stop s1 =>
      rw [hb] at h
      injection h with h1
      subst h1
      obtain ⟨h2, h3, h4⟩ := edf_body_stop_spec s s1 hb
      rw [h2]
      exact ⟨h3, h4⟩
    | go s1 =>
      rw [hb] at h
      exact ih s1 sf h

theorem statics_final {sf : SchedState} (h1 : sf.processes = [])
    (h2 : sf.ready_queue = []) : statics sf = msImg sf.cpu := by
  rw [statics, h1, h2, msImg_nil]
  abel

theorem statics_initial (l : List process) :
    statics ⟨pySort leArrival l, [], 0, []⟩ = msImg l := by
  rw [statics]
  show msImg (pySort leArrival l) + msImg [] + msImg [] = msImg l
  rw [msImg_nil, msImg_perm (pySort_perm leArrival l)]
  abel

/-- Claim C3: in the list returned by `edf`, a process has status `'S'`
exactly when its recorded `end_time` is at most its `deadline`, and
status `'F'` exactly when its `end_time` exceeds its `deadline`; a
deadline miss does not remove the process — every returned process is
completed (`end_time` set, `remaining_time = 0`), and the returned
population is exactly the input population. -/
theorem edf_status_correct (fuel : Nat) (l r : List process)
    (h : edf fuel l = some r) :
    (∀ p ∈ r,
      (p.status = some 'S' ↔ ∃ e, p.end_time = some e ∧ e ≤ p.deadline) ∧
      (p.status = some 'F' ↔ ∃ e, p.end_time = some e ∧ p.deadline < e) ∧
      p.end_time.isSome = true ∧ p.remaining_time = 0) ∧
    msImg r = msImg l := by
  obtain ⟨sf, hloop, hr⟩ := edf_eq_some.mp h
  have hstat := edf_loop_statusOK fuel _ sf hloop (fun x hx => by cases hx)
  constructor
  · intro p hp
    have hp' : p ∈ sf.cpu := by
      rw [hr] at hp
      exact (List.mem_insertionSort leStart).mp hp
    obtain ⟨⟨e0, he0, hcases⟩, hrem⟩ := hstat p hp'
    refine ⟨?_, ?_, by rw [he0]; rfl, hrem⟩
    · constructor
      · intro hS
        rcases hcases with ⟨hle, _⟩ | ⟨_, hF⟩
        · exact ⟨e0, he0, hle⟩
        · rw [hF] at hS
          injection hS with hc
          cases hc
      · rintro ⟨e, he, hle⟩
        rw [he0] at he
        injection he with he
        subst he
        rcases hcases with ⟨_, hS⟩ | ⟨hgt, _⟩
        · exact hS
        · omega
    · constructor
      · intro hF
        rcases hcases with ⟨_, hS⟩ | ⟨hgt, _⟩
        · rw [hS] at hF
          injection hF with hc
          cases hc
        · exact ⟨e0, he0, hgt⟩
      · rintro ⟨e, he, hgt⟩
        rw [he0] at he
        injection he with he
        subst he
        rcases hcases with ⟨hle, _⟩ | ⟨_, hF⟩
        · omega
        · exact hF
  · obtain ⟨hf1, hf2⟩ := edf_loop_final fuel _ sf hloop
    have h1 : msImg r = msImg sf.cpu := by
      rw [hr]
      exact msImg_perm (pySort_perm leStart sf.cpu)
    rw [h1, ← statics_final hf1 hf2, edf_loop_statics fuel _ sf hloop,
      statics_initial]

/-- The completed record produced by `edf` on the single process
A(arrival 0, burst 1, deadline 0): it ends at time 1 > 0 and is graded
`'F'`. -/
def missA : process :=
  { name := "A", arrival_time := 0, burst_time := 1, deadline := 0,
    start_time := some 0, end_time := some 1, remaining_time := 0,
    waiting_time := none, response_time := some 0, turnaround_time := none,
    status := some 'F', lastEnd := 1, preempted := false }

/-- Claim C3 witness: a one-process run that misses its deadline
(arrival 0, burst 1, deadline 0 — it ends at time 1 > 0, status `'F'`)
still appears, completed, in the returned list. -/
theorem edf_status_correct_witness :
    (∀ p ∈ [missA],
      (p.status = some 'S' ↔ ∃ e, p.end_time = some e ∧ e ≤ p.deadline) ∧
      (p.status = some 'F' ↔ ∃ e, p.end_time = some e ∧ p.deadline < e) ∧
      p.end_time.isSome = true ∧ p.remaining_time = 0) ∧
    msImg [missA] = msImg [process.init "A" 0 1 0] :=
  edf_status_correct 5 [process.init "A" 0 1 0] [missA] rfl

/-- Claim C5: on any finite list of freshly constructed processes with
positive burst times (and a positive quantum for `rr`), both simulation
loops terminate: some finite fuel makes them return a result. -/
theorem schedulers_terminate (l : List process) (q : Int)
    (hl : ∀ p ∈ l, fresh p ∧ 0 < p.burst_time) (hq : 0 < q) :
    (∃ fuel r, rr fuel l q = some r) ∧ (∃ fuel r, edf fuel l = some r) := by
  constructor
  · obtain ⟨fuel, sf, hf⟩ := rr_loop_terminates hq
      (measureS ⟨pySort leArrival l, [], 0, []⟩) ⟨pySort leArrival l, [], 0, []⟩
      le_rfl (initial_inv dstRR hl)
    exact ⟨fuel, pySort leStart sf.cpu, rr_eq_some.mpr ⟨sf, hf, rfl⟩⟩
  · obtain ⟨fuel, sf, hf⟩ := edf_loop_terminates
      (measureS ⟨pySort leArrival l, [], 0, []⟩) ⟨pySort leArrival l, [], 0, []⟩
      le_rfl (initial_inv statusOK hl)
    exact ⟨fuel, pySort leStart sf.cpu, edf_eq_some.mpr ⟨sf, hf, rfl⟩⟩

/-- Claim C5 witness at a concrete two-process input. -/
theorem schedulers_terminate_witness :
    (∃ fuel r, rr fuel [process.init "A" 0 2 5, process.init "B" 1 1 3] 2 = some r) ∧
    (∃ fuel r, edf fuel [process.init "A" 0 2 5, process.init "B" 1 1 3] = some r) :=
  schedulers_terminate [process.init "A" 0 2 5, process.init "B" 1 1 3] 2
    (by
      intro p hp
      rcases List.mem_cons.mp hp with h | h
      · rw [h]; exact ⟨fresh_init "A" 0 2 5, by decide⟩
      · rcases List.mem_cons.mp h with h | h
        · rw [h]; exact ⟨fresh_init "B" 1 1 3, by decide⟩
        · cases h)
    (by decide)

/-- Claim C10: with fresh inputs of positive burst time (and positive
quantum for `rr`), whenever a scheduler returns, the returned list
carries exactly the input population (a permutation of the static
descriptors), every returned process is fully completed
(`remaining_time = 0`, `start_time`, `end_time`, `response_time` and
`status` all set), and the drained pending pool — the caller's input
list — is empty in the final loop state. -/
theorem schedulers_complete_all (fuel : Nat) (l : List process) (q : Int)
    (hl : ∀ p ∈ l, fresh p ∧ 0 < p.burst_time) (hq : 0 < q) :
    (∀ r, rr fuel l q = some r →
      msImg r = msImg l ∧
      ∀ p ∈ r, p.remaining_time = 0 ∧ p.start_time.isSome = true ∧
        p.end_time.isSome = true ∧ p.response_time.isSome = true ∧
        p.status.isSome = true) ∧
    (∀ r, edf fuel l = some r →
      msImg r = msImg l ∧
      ∀ p ∈ r, p.remaining_time = 0 ∧ p.start_time.isSome = true ∧
        p.end_time.isSome = true ∧ p.response_time.isSome = true ∧
        p.status.isSome = true) ∧
    (∀ sf, rr_loop q fuel ⟨pySort leArrival l, [], 0, []⟩ = some sf →
      sf.processes = []) ∧
    (∀ sf, edf_loop fuel ⟨pySort leArrival l, [], 0, []⟩ = some sf →
      sf.processes = []) := by
  refine ⟨?_, ?_, ?_, ?_⟩
  · intro r h
    obtain ⟨sf, hloop, hr⟩ := rr_eq_some.mp h
    obtain ⟨⟨_, _, hcpu⟩, hf1, hf2⟩ := rr_loop_inv hq fuel _ sf hloop (initial_inv dstRR hl)
    constructor
    · rw [hr, msImg_perm (pySort_perm leStart sf.cpu), ← statics_final hf1 hf2,
        rr_loop_statics fuel _ sf hloop, statics_initial]
    · intro p hp
      have hp' : p ∈ sf.cpu := by
        rw [hr] at hp
        exact (List.mem_insertionSort leStart).mp hp
      obtain ⟨⟨hrem, _, s0, e0, hs0, he0, hresp, _, _, _⟩, hS⟩ := hcpu p hp'
      exact ⟨hrem, by rw [hs0]; rfl, by rw [he0]; rfl, by rw [hresp]; rfl,
        by rw [hS]; rfl⟩
  · intro r h
    obtain ⟨sf, hloop, hr⟩ := edf_eq_some.mp h
    obtain ⟨⟨_, _, hcpu⟩, hf1, hf2⟩ := edf_loop_inv fuel _ sf hloop (initial_inv statusOK hl)
    constructor
    · rw [hr, msImg_perm (pySort_perm leStart sf.cpu), ← statics_final hf1 hf2,
        edf_loop_statics fuel _ sf hloop, statics_initial]
    · intro p hp
      have hp' : p ∈ sf.cpu := by
        rw [hr] at hp
        exact (List.mem_insertionSort leStart).mp hp
      obtain ⟨⟨hrem, _, s0, e0, hs0, he0, hresp, _, _, _⟩, e1, he1, hcs⟩ := hcpu p hp'
      refine ⟨hrem, by rw [hs0]; rfl, by rw [he0]; rfl, by rw [hresp]; rfl, ?_⟩
      rcases hcs with ⟨_, hS⟩ | ⟨_, hF⟩
      · rw [hS]; rfl
      · rw [hF]; rfl
  · intro sf hloop
    exact (rr_loop_final fuel _ sf hloop).1
  · intro sf hloop
    exact (edf_loop_final fuel _ sf hloop).1

/-- Claim C10 witness at a concrete two-process input. -/
theorem schedulers_complete_all_witness :
    (∀ r, rr 20 [process.init "A" 0 2 5, process.init "B" 1 1 3] 2 = some r →
      msImg r = msImg [process.init "A" 0 2 5, process.init "B" 1 1 3] ∧
      ∀ p ∈ r, p.remaining_time = 0 ∧ p.start_time.isSome = true ∧
        p.end_time.isSome = true ∧ p.response_time.isSome = true ∧
        p.status.isSome = true) ∧
    (∀ r, edf 20 [process.init "A" 0 2 5, process.init "B" 1 1 3] = some r →
      msImg r = msImg [process.init "A" 0 2 5, process.init "B" 1 1 3] ∧
      ∀ p ∈ r, p.remaining_time = 0 ∧ p.start_time.isSome = true ∧
        p.end_time.isSome = true ∧ p.response_time.isSome = true ∧
        p.status.isSome = true) ∧
    (∀ sf, rr_loop 2 20
        ⟨pySort leArrival [process.init "A" 0 2 5, process.init "B" 1 1 3], [], 0, []⟩
        = some sf → sf.processes = []) ∧
    (∀ sf, edf_loop 20
        ⟨pySort leArrival [process.init "A" 0 2 5, process.init "B" 1 1 3], [], 0, []⟩
        = some sf → sf.processes = []) :=
  schedulers_complete_all 20 [process.init "A" 0 2 5, process.init "B" 1 1 3] 2
    (by
      intro p hp
      rcases List.mem_cons.mp hp with h | h
      · rw [h]; exact ⟨fresh_init "A" 0 2 5, by decide⟩
      · rcases List.mem_cons.mp h with h | h
        · rw [h]; exact ⟨fresh_init "B" 1 1 3, by decide⟩
        · cases h)
    (by decide)

/-- Claim C6: with fresh inputs of non-negative arrival time and
positive burst time (and positive quantum for `rr`), every process in
either scheduler's result satisfies
`arrival_time ≤ start_time ≤ end_time` and
`end_time - start_time ≥ burst_time`, with equality
`end_time - start_time = burst_time` whenever the process was never
preempted (it executed in one uninterrupted stretch, as recorded by the
ghost `preempted` flag). -/
theorem lifecycle_time_bounds (fuel : Nat) (l : List process) (q : Int)
    (hl : ∀ p ∈ l, fresh p ∧ 0 < p.burst_time ∧ 0 ≤ p.arrival_time) (hq : 0 < q) :
    (∀ r, rr fuel l q = some r → ∀ p ∈ r, ∃ s0 e0,
      p.start_time = some s0 ∧ p.end_time = some e0 ∧
      p.arrival_time ≤ s0 ∧ s0 ≤ e0 ∧ p.burst_time ≤ e0 - s0 ∧
      (p.preempted = false → e0 - s0 = p.burst_time)) ∧
    (∀ r, edf fuel l = some r → ∀ p ∈ r, ∃ s0 e0,
      p.start_time = some s0 ∧ p.end_time = some e0 ∧
      p.arrival_time ≤ s0 ∧ s0 ≤ e0 ∧ p.burst_time ≤ e0 - s0 ∧
      (p.preempted = false → e0 - s0 = p.burst_time)) := by
  have hl' : ∀ p ∈ l, fresh p ∧ 0 < p.burst_time :=
    fun p hp => ⟨(hl p hp).1, (hl p hp).2.1⟩
  constructor
  · intro r h p hp
    obtain ⟨sf, hloop, hr⟩ := rr_eq_some.mp h
    obtain ⟨⟨_, _, hcpu⟩, _, _⟩ := rr_loop_inv hq fuel _ sf hloop (initial_inv dstRR hl')
    have hp' : p ∈ sf.cpu := by
      rw [hr] at hp
      exact (List.mem_insertionSort leStart).mp hp
    obtain ⟨⟨hrem, hb, s0, e0, hs0, he0, hresp, harr, hle, hiff⟩, _⟩ := hcpu p hp'
    exact ⟨s0, e0, hs0, he0, harr, by omega, by omega,
      fun hpf => by have := hiff.mp hpf; omega⟩
  · intro r h p hp
    obtain ⟨sf, hloop, hr⟩ := edf_eq_some.mp h
    obtain ⟨⟨_, _, hcpu⟩, _, _⟩ := edf_loop_inv fuel _ sf hloop (initial_inv statusOK hl')
    have hp' : p ∈ sf.cpu := by
      rw [hr] at hp
      exact (List.mem_insertionSort leStart).mp hp
    obtain ⟨⟨hrem, hb, s0, e0, hs0, he0, hresp, harr, hle, hiff⟩, _⟩ := hcpu p hp'
    exact ⟨s0, e0, hs0, he0, harr, by omega, by omega,
      fun hpf => by have := hiff.mp hpf; omega⟩

/-- Claim C6 witness at a concrete two-process input. -/
theorem lifecycle_time_bounds_witness :
    (∀ r, rr 20 [process.init "A" 0 2 5, process.init "B" 1 1 3] 2 = some r →
      ∀ p ∈ r, ∃ s0 e0,
      p.start_time = some s0 ∧ p.end_time = some e0 ∧
      p.arrival_time ≤ s0 ∧ s0 ≤ e0 ∧ p.burst_time ≤ e0 - s0 ∧
      (p.preempted = false → e0 - s0 = p.burst_time)) ∧
    (∀ r, edf 20 [process.init "A" 0 2 5, process.init "B" 1 1 3] = some r →
      ∀ p ∈ r, ∃ s0 e0,
      p.start_time = some s0 ∧ p.end_time = some e0 ∧
      p.arrival_time ≤ s0 ∧ s0 ≤ e0 ∧ p.burst_time ≤ e0 - s0 ∧
      (p.preempted = false → e0 - s0 = p.burst_time)) :=
  lifecycle_time_bounds 20 [process.init "A" 0 2 5, process.init "B" 1 1 3] 2
    (by
      intro p hp
      rcases List.mem_cons.mp hp with h | h
      · rw [h]; exact ⟨fresh_init "A" 0 2 5, by decide, by decide⟩
      · rcases List.mem_cons.mp h with h | h
        · rw [h]; exact ⟨fresh_init "B" 1 1 3, by decide, by decide⟩
        · cases h)
    (by decide)

/-! ### Metrics lemmas -/

theorem updateTimes_idem (p : process) : updateTimes (updateTimes p) = updateTimes p := rfl

theorem map_updateTimes_idem (l : List process) :
    (l.map updateTimes).map updateTimes = l.map updateTimes := by
  rw [List.map_map]
  have hcomp : updateTimes ∘ updateTimes = updateTimes :=
    funext (fun p => updateTimes_idem p)
  rw [hcomp]

theorem maxEnd_updateTimes (h : process) (t : List process) :
    maxEnd (updateTimes h) (t.map updateTimes) = maxEnd h t := by
  rw [maxEnd, maxEnd, List.foldl_map]
  rfl

theorem calculate_metrics_fst {cpu l : List process}
    {m : ℚ × ℚ × ℚ × ℚ × ℚ × ℚ} (h : calculate_metrics cpu = some (l, m)) :
    l = cpu.map updateTimes ∧
    cpu.any (fun p => p.end_time.isNone || p.response_time.isNone) = false := by
  cases cpu with
  | nil => cases h
  | cons h0 t0 =>
    rw [calculate_metrics] at h
    split at h
    · cases h
    · rename_i hg
      simp only [] at h
      split at h
      · cases h
      · split at h
        · cases h
        · injection h with h1
          rw [Prod.mk.injEq] at h1
          exact ⟨h1.1.symm, Bool.not_eq_true _ |>.mp hg⟩

/-- Re-running `calculate_metrics` on the mutated list is
indistinguishable from running it on the original list: the mutation
only rewrites `turnaround_time` and `waiting_time`, and the function
recomputes both from fields the mutation does not touch. -/
theorem calculate_metrics_updateTimes (cpu : List process) :
    calculate_metrics (cpu.map updateTimes) = calculate_metrics cpu := by
  cases cpu with
  | nil => rfl
  | cons h0 t0 =>
    show calculate_metrics (updateTimes h0 :: t0.map updateTimes)
      = calculate_metrics (h0 :: t0)
    unfold calculate_metrics
    simp only []
    rw [show (updateTimes h0 :: t0.map updateTimes) = (h0 :: t0).map updateTimes
      from rfl]
    rw [List.any_map, List.length_map]
    rw [show maxEnd (updateTimes h0) (t0.map updateTimes) = maxEnd h0 t0
      from maxEnd_updateTimes h0 t0]
    rw [map_updateTimes_idem, List.any_map, map_updateTimes_idem, updateTimes_idem]
    rfl

theorem guard_end_some {cpu : List process}
    (hg : cpu.any (fun p => p.end_time.isNone || p.response_time.isNone) = false) :
    ∀ x ∈ cpu, ∃ e, x.end_time = some e := by
  intro x hx
  cases he : x.end_time with
  | some e => exact ⟨e, rfl⟩
  | none =>
    exfalso
    have : cpu.any (fun p => p.end_time.isNone || p.response_time.isNone) = true :=
      List.any_eq_true.mpr ⟨x, hx, by rw [he]; rfl⟩
    rw [hg] at this
    cases this

/-- Claim C7: after `calculate_metrics` succeeds on a (necessarily
non-empty) completed list, every process in the returned list carries
`turnaround_time = end_time - arrival_time` and
`turnaround_time = waiting_time + burst_time`, exactly. -/
theorem metrics_conservation (cpu l : List process)
    (m : ℚ × ℚ × ℚ × ℚ × ℚ × ℚ) (h : calculate_metrics cpu = some (l, m)) :
    ∀ p ∈ l, ∃ e ta w,
      p.end_time = some e ∧ p.turnaround_time = some ta ∧ p.waiting_time = some w ∧
      ta = e - p.arrival_time ∧ ta = w + p.burst_time := by
  obtain ⟨hl, hg⟩ := calculate_metrics_fst h
  intro p hp
  rw [hl] at hp
  obtain ⟨x, hx, hpx⟩ := List.mem_map.mp hp
  obtain ⟨e, he⟩ := guard_end_some hg x hx
  subst hpx
  refine ⟨e, e - x.arrival_time, e - x.arrival_time - x.burst_time,
    ?_, ?_, ?_, ?_, ?_⟩
  · show x.end_time = some e
    exact he
  · show some (endKey x - x.arrival_time) = some (e - x.arrival_time)
    rw [endKey, he]
    rfl
  · show some (endKey x - x.arrival_time - x.burst_time)
      = some (e - x.arrival_time - x.burst_time)
    rw [endKey, he]
    rfl
  · rfl
  · show e - x.arrival_time = (e - x.arrival_time - x.burst_time) + x.burst_time
    ring

/-- The record `missA` as mutated by `calculate_metrics`. -/
def missA1 : process :=
  { missA with turnaround_time := some 1, waiting_time := some 0 }

/-- Claim C7 witness on a concrete one-element completed list. -/
theorem metrics_conservation_witness :
    ∃ e ta w,
      missA1.end_time = some e ∧ missA1.turnaround_time = some ta ∧
      missA1.waiting_time = some w ∧
      ta = e - missA1.arrival_time ∧ ta = w + missA1.burst_time :=
  metrics_conservation [missA] [missA1] (0, 0, 1, 1, 100, 1)
    (by norm_num [calculate_metrics, updateTimes, endKey, maxEnd, round2, missA, missA1])
    missA1 (List.mem_singleton.mpr rfl)

/-- Claim C9: if `calculate_metrics` succeeds on a non-empty completed
list, calling it again on the (mutated) list it produced succeeds and
returns the identical metrics tuple — the mutation only touches fields
that the computation recomputes from unmutated inputs. -/
theorem metrics_idempotent (cpu l : List process)
    (m : ℚ × ℚ × ℚ × ℚ × ℚ × ℚ) (hne : cpu ≠ [])
    (h : calculate_metrics cpu = some (l, m)) :
    ∃ l2, calculate_metrics l = some (l2, m) :=
  ⟨l, by
    have hl := (calculate_metrics_fst h).1
    rw [hl, calculate_metrics_updateTimes, ← hl]
    exact h⟩

/-- Claim C9 witness on a concrete one-element completed list. -/
theorem metrics_idempotent_witness :
    ∃ l2, calculate_metrics [missA1] = some (l2, (0, 0, 1, 1, 100, 1)) :=
  metrics_idempotent [missA] [missA1] (0, 0, 1, 1, 100, 1) (by decide)
    (by norm_num [calculate_metrics, updateTimes, endKey, maxEnd, round2, missA, missA1])

/-- The two completed records produced by `rr` on Scenario B. -/
def P1rrDone : process :=
  { name := "P1", arrival_time := 0, burst_time := 4, deadline := 10,
    start_time := some 0, end_time := some 6, remaining_time := 0,
    waiting_time := none, response_time := some 0, turnaround_time := none,
    status := some 'S', lastEnd := 6, preempted := true }

/-- Companion record to `P1rrDone`. -/
def P2rrDone : process :=
  { name := "P2", arrival_time := 1, burst_time := 2, deadline := 3,
    start_time := some 2, end_time := some 4, remaining_time := 0,
    waiting_time := none, response_time := some 1, turnaround_time := none,
    status := some 'S', lastEnd := 4, preempted := false }

/-- Claim C8 witness on the concrete Scenario-B run of `rr`. -/
theorem results_sorted_by_start_witness :
    List.Pairwise leStart [P1rrDone, P2rrDone] :=
  (results_sorted_by_start 20 [process.init "P1" 0 4 10, process.init "P2" 1 2 3] 2).1
    [P1rrDone, P2rrDone] rfl
